import Mathlib

/-!
A shallow embedding of the arena-backed directed-graph library.

The data model mirrors the source: payload arenas for nodes and edges,
per-node adjacency lists of (neighbor, edge) pairs, and an incidence table
mapping each edge to its (source, destination) pair.  Handles are the arena
indices they wrap in the source, so they are plain naturals here.  Fallible
operations (arena indexing that can fault) return `Option`; traversals
return a three-way result distinguishing an index fault from fuel
exhaustion of the embedding, so that termination is itself a provable
statement.
-/

namespace GraphLib

/-- One adjacency entry: the neighbor node handle and the connecting edge
handle. -/
structure AdjEntry where
  node : Nat
  edge : Nat
deriving DecidableEq

/-- One incidence entry: source and destination node handles of an edge. -/
structure IncEntry where
  frm : Nat
  toN : Nat
deriving DecidableEq

/-- The graph arena: node payloads, edge payloads, adjacency lists and the
incidence table, all append-only. -/
structure Graph (N E : Type) where
  nodes : List N
  edges : List E
  adjacency : List (List AdjEntry)
  incidence : List IncEntry
deriving DecidableEq

variable {N E : Type}

/-- Constructs an empty graph. -/
def Graph.empty (N E : Type) : Graph N E := ⟨[], [], [], []⟩

/-- Adds a node: appends the payload and a fresh empty adjacency list and
returns the handle, which is the index of the new slot. -/
def Graph.node (g : Graph N E) (n : N) : Graph N E × Nat :=
  ({ g with nodes := g.nodes ++ [n], adjacency := g.adjacency ++ [[]] },
   g.nodes.length)

/-- Adds a directed edge.  Indexing the adjacency list of `frm` faults when
`frm` is out of range (`none`); the target handle `to` is stored without any
check, exactly as in the source. -/
def Graph.directed_edge (g : Graph N E) (frm toN : Nat) (e : E) :
    Option (Graph N E × Nat) :=
  if h : frm < g.adjacency.length then
    some ({ g with
            edges := g.edges ++ [e],
            adjacency := g.adjacency.set frm
              (g.adjacency.get ⟨frm, h⟩ ++ [⟨toN, g.edges.length⟩]),
            incidence := g.incidence ++ [⟨frm, toN⟩] },
          g.edges.length)
  else none

/-- Adds an undirected edge as a pair of mirrored directed edges, `a → b`
first, each carrying a copy of the payload. -/
def Graph.undirected_edge (g : Graph N E) (a b : Nat) (e : E) :
    Option (Graph N E × Nat × Nat) :=
  match g.directed_edge a b e with
  | some (g1, r1) =>
    match g1.directed_edge b a e with
    | some (g2, r2) => some (g2, r1, r2)
    | none => none
  | none => none

/-- Read access to a node payload through its handle (`Index<NodeRef>`). -/
def Graph.indexNode (g : Graph N E) (r : Nat) : Option N := g.nodes.get? r

/-- Read access to an edge payload through its handle (`Index<EdgeRef>`). -/
def Graph.indexEdge (g : Graph N E) (r : Nat) : Option E := g.edges.get? r

/-- Write access to an edge payload through its handle
(`IndexMut<EdgeRef>`); faults when the handle is out of range. -/
def Graph.setEdge (g : Graph N E) (r : Nat) (e : E) : Option (Graph N E) :=
  if r < g.edges.length then some { g with edges := g.edges.set r e }
  else none

/-- A construction-API call: add a node, a directed edge, or an undirected
edge. -/
inductive Op (N E : Type) where
  | node : N → Op N E
  | directed_edge : Nat → Nat → E → Op N E
  | undirected_edge : Nat → Nat → E → Op N E

/-- Applies one construction call to a graph state. -/
def applyOp (g : Graph N E) : Op N E → Option (Graph N E)
  | .node n => some (g.node n).1
  | .directed_edge u v e => (g.directed_edge u v e).map Prod.fst
  | .undirected_edge a b e => (g.undirected_edge a b e).map Prod.fst

/-- Applies a sequence of construction calls, stopping at the first fault. -/
def runOps (g : Graph N E) : List (Op N E) → Option (Graph N E)
  | [] => some g
  | op :: rest =>
    match applyOp g op with
    | some g1 => runOps g1 rest
    | none => none

/-- A graph is built when some sequence of public construction calls
produces it from the empty graph. -/
def Built (g : Graph N E) : Prop :=
  ∃ ops : List (Op N E), runOps (Graph.empty N E) ops = some g

/-- Number of occurrences of the pair `(v, e)` in the adjacency list of
`u`. -/
def adjCount (g : Graph N E) (u v e : Nat) : Nat :=
  (g.adjacency.getD u []).countP (fun a => a.node == v && a.edge == e)

/-- Structural invariant of API-built graphs: the arenas agree in length,
every stored edge handle is live, and every incidence entry `e ↦ (u, v)`
has its mirror pair `(v, e)` exactly once in the adjacency list of `u`. -/
def Wf (g : Graph N E) : Prop :=
  g.nodes.length = g.adjacency.length ∧
  g.edges.length = g.incidence.length ∧
  (∀ l ∈ g.adjacency, ∀ a ∈ l, a.edge < g.edges.length) ∧
  (∀ i, i < g.incidence.length →
    (g.incidence.getD i ⟨0, 0⟩).frm < g.adjacency.length ∧
    adjCount g (g.incidence.getD i ⟨0, 0⟩).frm
      (g.incidence.getD i ⟨0, 0⟩).toN i = 1)

/-- All adjacency targets are live node slots.  This is not implied by
`Built`, because `directed_edge` never checks its target handle. -/
def Closed (g : Graph N E) : Prop :=
  ∀ l ∈ g.adjacency, ∀ a ∈ l, a.node < g.nodes.length

instance (g : Graph N E) : Decidable (Wf g) := by
  unfold Wf; exact inferInstance

instance (g : Graph N E) : Decidable (Closed g) := by
  unfold Closed; exact inferInstance

/-- Result of a traversal: an index fault (a panic in the source), fuel
exhaustion of the embedding, or the final visited array together with the
sequence of node-visitor invocations. -/
inductive TRes where
  | outOfFuel : TRes
  | panicked : TRes
  | ok : List Bool → List Nat → TRes
deriving DecidableEq

/-- The visited flag of `x`, read defensively (the source always indexes in
range wherever this is used without a preceding guard). -/
def visB (v : List Bool) (x : Nat) : Bool := v.getD x false

/-- Number of unvisited entries: the termination measure of the depth-first
walk. -/
def unvis (v : List Bool) : Nat := v.count false

/-- Sequencing of traversal steps: propagate a fault or fuel exhaustion,
continue on success. -/
def seqTRes (r : TRes) (k : List Bool → List Nat → TRes) : TRes :=
  match r with
  | .ok v out => k v out
  | .outOfFuel => .outOfFuel
  | .panicked => .panicked

/-- Iterates the depth-first walk over one adjacency list, checking the
edge-payload lookup of the edge visitor and recursing through `f` into each
neighbor, in insertion order. -/
def dfsList (g : Graph N E) (f : Nat → List Bool → TRes) :
    List AdjEntry → List Bool → TRes
  | [], v => .ok v []
  | a :: rest, v =>
    if a.edge < g.edges.length then
      seqTRes (f a.node v) (fun v1 out1 =>
        seqTRes (dfsList g f rest v1) (fun v2 out2 => .ok v2 (out1 ++ out2)))
    else .panicked

/-- The recursive depth-first walk of the source: return on a marked node,
otherwise visit, mark, then walk the adjacency list.  Fuel only bounds the
recursion depth of the embedding; the canonical budget is proved
sufficient. -/
def dfsNode (g : Graph N E) : Nat → Nat → List Bool → TRes
  | 0, _, _ => .outOfFuel
  | fuel + 1, node, v =>
    if h : node < v.length then
      if v.get ⟨node, h⟩ then .ok v []
      else
        if h2 : node < g.adjacency.length then
          seqTRes (dfsList g (fun x w => dfsNode g fuel x w)
              (g.adjacency.get ⟨node, h2⟩) (v.set node true))
            (fun v2 out => .ok v2 (node :: out))
        else .panicked
    else .panicked

/-- `visit_dfs` restricted to the node visitor: records the order in which
the node visitor fires. -/
def visit_dfs_nodes (g : Graph N E) (start : Nat) : TRes :=
  dfsNode g (g.nodes.length + 1) start (List.replicate g.nodes.length false)

/-- The queue-driven breadth-first loop of the source: pop, skip if already
visited, otherwise visit, mark, and push every neighbor unconditionally. -/
def bfsLoop (g : Graph N E) : Nat → List Nat → List Bool → TRes
  | _, [], v => .ok v []
  | 0, _ :: _, _ => .outOfFuel
  | fuel + 1, node :: rest, v =>
    if h : node < v.length then
      if v.get ⟨node, h⟩ then bfsLoop g fuel rest v
      else
        if h2 : node < g.adjacency.length then
          if (g.adjacency.get ⟨node, h2⟩).all
              (fun a => decide (a.edge < g.edges.length)) then
            seqTRes (bfsLoop g fuel
                (rest ++ (g.adjacency.get ⟨node, h2⟩).map AdjEntry.node)
                (v.set node true))
              (fun v2 out => .ok v2 (node :: out))
          else .panicked
        else .panicked
    else .panicked

/-- Total size of all adjacency lists. -/
def totalAdj (g : Graph N E) : Nat := (g.adjacency.map List.length).sum

/-- `visit_bfs` restricted to the node visitor: seeds the queue with the
start node and runs the loop with the canonical fuel budget. -/
def visit_bfs_nodes (g : Graph N E) (start : Nat) : TRes :=
  bfsLoop g (totalAdj g + 2) [start] (List.replicate g.nodes.length false)

/-- One directed step along an adjacency entry. -/
def stepAdj (g : Graph N E) (m n : Nat) : Prop :=
  ∃ a ∈ g.adjacency.getD m [], a.node = n

/-- `reachN g s k n`: `n` is reachable from `s` along at most `k` directed
edges. -/
def reachN (g : Graph N E) (s : Nat) : Nat → Nat → Prop
  | 0, n => n = s
  | k + 1, n => reachN g s k n ∨ ∃ m, reachN g s k m ∧ stepAdj g m n

/-- Reachability from `s` along directed edges. -/
def Reach (g : Graph N E) (s n : Nat) : Prop := ∃ k, reachN g s k n

/-- `distIs g s n d`: the least number of edges on a directed path from `s`
to `n` is exactly `d`. -/
def distIs (g : Graph N E) (s n d : Nat) : Prop :=
  reachN g s d n ∧ ∀ j < d, ¬ reachN g s j n

/-- A visit function only ever grows the visited array, preserving its
length. -/
def DfsMono (f : Nat → List Bool → TRes) : Prop :=
  ∀ node v v2 out, f node v = .ok v2 out →
    v2.length = v.length ∧ ∀ i, visB v i = true → visB v2 i = true

/-- A visit function fires the node visitor exactly on the nodes it newly
marks, once each. -/
def DfsCount (f : Nat → List Bool → TRes) : Prop :=
  ∀ node v v2 out, f node v = .ok v2 out →
    ∀ i, out.count i + (if visB v i = true then 1 else 0)
      = (if visB v2 i = true then 1 else 0)

/-- A visit function only visits nodes reachable from its argument. -/
def DfsSound (g : Graph N E) (f : Nat → List Bool → TRes) : Prop :=
  ∀ node v v2 out, f node v = .ok v2 out → ∀ m ∈ out, Reach g node m

/-- After a successful visit of `node`, `node` is marked, and every node
marked during the call has all its adjacency successors marked. -/
def DfsClosure (g : Graph N E) (f : Nat → List Bool → TRes) : Prop :=
  ∀ node v v2 out, f node v = .ok v2 out →
    visB v2 node = true ∧
    ∀ m, visB v2 m = true → visB v m = true ∨
      ∀ a ∈ g.adjacency.getD m [], visB v2 a.node = true

/-- Every unvisited node's adjacency entries point at live node slots.
Weaker than `Closed`: already-visited nodes are exempt, which is what the
depth-first walk actually needs, since it never re-reads their lists. -/
def PClosed (g : Graph N E) (v : List Bool) : Prop :=
  ∀ m, m < g.adjacency.length → visB v m = false →
    ∀ a ∈ g.adjacency.getD m [], a.node < g.nodes.length

/-- Total degree of the still-unvisited nodes: together with the queue
length this is the potential that strictly decreases at every pop of the
breadth-first loop. -/
def adjWeight (g : Graph N E) (v : List Bool) : Nat :=
  ∑ i in Finset.range g.adjacency.length,
    (if visB v i = true then 0 else (g.adjacency.getD i []).length)

/-- The potential of a breadth-first state. -/
def bfsPot (g : Graph N E) (Q : List Nat) (v : List Bool) : Nat :=
  Q.length + adjWeight g v

/-- The layering invariant of the breadth-first loop, relative to a start
node `s` and the distance `D` of the most recently visited node: the start
is visited or enqueued; queue members are reachable; among the unvisited
queue entries, first occurrences appear in non-decreasing distance order;
unvisited queue entries live in the window `[D, D + 1]`; every node closer
than `D` is already visited; every visited node's successors are visited
or enqueued; and visited nodes are no farther than `D`. -/
def BfsInv (g : Graph N E) (s : Nat) (Q : List Nat) (v : List Bool)
    (D : Nat) : Prop :=
  (visB v s = true ∨ s ∈ Q) ∧
  (∀ x ∈ Q, Reach g s x) ∧
  (∀ Q1 a Q2 b Q3, Q = Q1 ++ a :: (Q2 ++ b :: Q3) →
    visB v a = false → visB v b = false → a ∉ Q1 →
    b ∉ Q1 ++ a :: Q2 →
    ∀ da db, distIs g s a da → distIs g s b db → da ≤ db) ∧
  (∀ x ∈ Q, visB v x = false → ∀ d, distIs g s x d → D ≤ d ∧ d ≤ D + 1) ∧
  (∀ n d, distIs g s n d → d < D → visB v n = true) ∧
  (∀ p, visB v p = true → ∀ a ∈ g.adjacency.getD p [],
    visB v a.node = true ∨ a.node ∈ Q) ∧
  (∀ p, visB v p = true → ∀ d, distIs g s p d → d ≤ D)


/-- Result of the flow solver: rejection of invalid input, or a flow
value. -/
inductive FlowResult where
  | invalidInput : FlowResult
  | ok : Int → FlowResult
deriving DecidableEq

/-- Modelled from the spec: the residual moves available from `cur` under
the current `flow` assignment.  The source's `max_flow` body is missing
(it only declares locals), so the residual-graph search mandated by §4.3 is
modelled here: a forward move along an edge with positive remaining
capacity, or a backward move cancelling previously pushed flow. -/
def residualMoves (g : Graph N Int) (flow : List Int) (cur : Nat) :
    List (Nat × Bool × Nat) :=
  (List.range g.edges.length).filterMap (fun e =>
    match g.incidence.get? e, g.edges.get? e, flow.get? e with
    | some inc, some cap, some fl =>
      if inc.frm = cur ∧ cap - fl > 0 then some (e, true, inc.toN)
      else if inc.toN = cur ∧ fl > 0 then some (e, false, inc.frm)
      else none
    | _, _, _ => none)

/-- Modelled from the spec: tries each residual move in turn, extending
the path found by the recursive search `f`. -/
def tryMoves (f : Nat → Option (List (Nat × Bool))) :
    List (Nat × Bool × Nat) → Option (List (Nat × Bool))
  | [] => none
  | (e, dir, nxt) :: rest =>
    match f nxt with
    | some path => some ((e, dir) :: path)
    | none => tryMoves f rest

/-- Modelled from the spec: depth-first search for an augmenting path from
`cur` to `target` using only moves of strictly positive residual capacity,
guarding against cycles by marking the nodes on the current path. -/
def findPath (g : Graph N Int) (flow : List Int) :
    Nat → List Bool → Nat → Nat → Option (List (Nat × Bool))
  | 0, _, _, _ => none
  | fuel + 1, vis, cur, target =>
    if cur = target then some []
    else if visB vis cur then none
    else
      tryMoves (fun nxt => findPath g flow fuel (vis.set cur true) nxt target)
        (residualMoves g flow cur)

/-- Modelled from the spec: the minimum residual capacity along a path
(`none` for the empty path, which only arises when source equals sink). -/
def bottleneck (g : Graph N Int) (flow : List Int) :
    List (Nat × Bool) → Option Int
  | [] => none
  | (e, dir) :: rest =>
    let r := if dir then g.edges.getD e 0 - flow.getD e 0 else flow.getD e 0
    match bottleneck g flow rest with
    | none => some r
    | some m => some (min r m)

/-- Modelled from the spec: pushes `b` units of flow along a path,
incrementing forward edges and cancelling along backward edges. -/
def augment (flow : List Int) (b : Int) : List (Nat × Bool) → List Int
  | [] => flow
  | (e, dir) :: rest =>
    augment
      (if dir then flow.set e (flow.getD e 0 + b)
       else flow.set e (flow.getD e 0 - b)) b rest

/-- Modelled from the spec: the Ford-Fulkerson loop — find an augmenting
path, push its bottleneck, accumulate, and stop when no augmenting path
remains (or when source equals sink, by the flow-0 convention). -/
def ffLoop (g : Graph N Int) (s t : Nat) : Nat → List Int → Int → Int
  | 0, _, acc => acc
  | fuel + 1, flow, acc =>
    match findPath g flow (g.nodes.length + 1)
        (List.replicate g.nodes.length false) s t with
    | none => acc
    | some path =>
      match bottleneck g flow path with
      | none => acc
      | some b =>
        if b ≤ 0 then acc else ffLoop g s t fuel (augment flow b path) (acc + b)

/-- Total positive capacity, bounding the number of augmenting rounds. -/
def capSum (g : Graph N Int) : Int := (g.edges.map (fun c => max c 0)).sum

/-- Modelled from the spec: `max_flow` — the source's body is missing, so
this follows §4.3 and §7: reject any negative capacity before computing,
otherwise run the augmenting-path loop on a private residual table. -/
def Graph.max_flow (g : Graph N Int) (s t : Nat) : FlowResult :=
  if g.edges.any (fun c => decide (c < 0)) then .invalidInput
  else
    .ok (ffLoop g s t ((capSum g).toNat + 1)
      (List.replicate g.edges.length 0) 0)

/-- `min_cut` delegates to `max_flow` and returns the identical value, as
in the source. -/
def Graph.min_cut (g : Graph N Int) (s t : Nat) : FlowResult :=
  g.max_flow s t

/-- Construction calls for a small two-node, one-edge example graph. -/
def exOps : List (Op Nat Nat) :=
  [.node 10, .node 20, .directed_edge 0 1 5]

/-- A small example graph: two nodes and the edge `0 → 1`. -/
def gEx : Graph Nat Nat :=
  (runOps (Graph.empty Nat Nat) exOps).getD (Graph.empty Nat Nat)

/-- The three-node flow scenario of the spec: `A → B` with capacity 3 and
`B → C` with capacity 2. -/
def gABC : Graph Nat Int :=
  (runOps (Graph.empty Nat Int)
      [.node 0, .node 1, .node 2,
       .directed_edge 0 1 3, .directed_edge 1 2 2]).getD
    (Graph.empty Nat Int)

/-- A flow graph with a negative-capacity edge. -/
def gNeg : Graph Nat Int :=
  (runOps (Graph.empty Nat Int)
      [.node 0, .node 1, .directed_edge 0 1 (-1)]).getD
    (Graph.empty Nat Int)

/-! ### List helpers -/

theorem getD_set_self {α} (l : List α) (i : Nat) (x d : α)
    (h : i < l.length) : (l.set i x).getD i d = x := by
  simp [List.getD_eq_getElem?_getD, List.getElem?_set, h]

theorem getD_set_other {α} (l : List α) {i j : Nat} (x d : α)
    (h : i ≠ j) : (l.set i x).getD j d = l.getD j d := by
  simp [List.getD_eq_getElem?_getD, List.getElem?_set, h]

theorem getD_replicate_false (n i : Nat) :
    (List.replicate n false).getD i false = false := by
  simp only [List.getD_eq_getElem?_getD, List.getElem?_replicate]
  split <;> rfl

theorem getD_pos_of_ne {α} (l : List α) {i : Nat} {d : α}
    (h : l.getD i d ≠ d) : i < l.length := by
  by_contra hn
  exact h (by simp [List.getD_eq_getElem?_getD,
    List.getElem?_eq_none (Nat.le_of_not_lt hn)])

theorem getD_eq_get {α} (l : List α) (d : α) {i : Nat} (h : i < l.length) :
    l.getD i d = l.get ⟨i, h⟩ := by
  simp [List.getD_eq_getElem, h, List.get_eq_getElem]

/-! ### Preservation of the structural invariant -/

theorem getD_append_nil_pad (l : List (List AdjEntry)) (u : Nat) :
    (l ++ [([] : List AdjEntry)]).getD u [] = l.getD u [] := by
  rcases Nat.lt_trichotomy u l.length with h | h | h
  · exact List.getD_append _ _ _ _ h
  · subst h
    rw [List.getD_append_right _ _ _ _ (Nat.le_refl _), Nat.sub_self]
    have h2 : l.getD l.length [] = [] := by
      rw [List.getD_eq_getElem?_getD, List.getElem?_eq_none (Nat.le_refl _)]
      rfl
    rw [h2]
    rfl
  · rw [List.getD_append_right _ _ _ _ (Nat.le_of_lt h)]
    have h1 : ([[]] : List (List AdjEntry)).getD (u - l.length) [] = [] := by
      rw [List.getD_eq_getElem?_getD, List.getElem?_eq_none (by simp; omega)]
      rfl
    have h2 : l.getD u [] = [] := by
      rw [List.getD_eq_getElem?_getD, List.getElem?_eq_none (by omega)]
      rfl
    rw [h1, h2]

theorem adjCount_node (g : Graph N E) (n : N) (u v e : Nat) :
    adjCount (g.node n).1 u v e = adjCount g u v e := by
  unfold adjCount
  simp only [Graph.node]
  rw [getD_append_nil_pad]

theorem wf_node (g : Graph N E) (n : N) (hw : Wf g) : Wf (g.node n).1 := by
  obtain ⟨h1, h2, h3, h4⟩ := hw
  refine ⟨by simp [Graph.node, h1], h2, ?_, ?_⟩
  · intro l hl a ha
    rcases List.mem_append.1 hl with hl | hl
    · exact h3 l hl a ha
    · simp at hl; subst hl; simp at ha
  · intro i hi
    have hi' : i < g.incidence.length := hi
    obtain ⟨hfrm, hcnt⟩ := h4 i hi'
    constructor
    · show (g.incidence.getD i ⟨0, 0⟩).frm < (g.adjacency ++ [[]]).length
      simp only [List.length_append, List.length_singleton]
      omega
    · show adjCount (g.node n).1 (g.incidence.getD i ⟨0, 0⟩).frm
          (g.incidence.getD i ⟨0, 0⟩).toN i = 1
      rw [adjCount_node]
      exact hcnt

theorem directed_edge_some (g : Graph N E) (u v : Nat) (e : E)
    (h : u < g.adjacency.length) :
    g.directed_edge u v e =
      some ({ g with
              edges := g.edges ++ [e],
              adjacency := g.adjacency.set u
                (g.adjacency.get ⟨u, h⟩ ++ [⟨v, g.edges.length⟩]),
              incidence := g.incidence ++ [⟨u, v⟩] },
            g.edges.length) := by
  simp [Graph.directed_edge, h]

theorem directed_edge_none (g : Graph N E) (u v : Nat) (e : E)
    (h : ¬ u < g.adjacency.length) : g.directed_edge u v e = none := by
  simp [Graph.directed_edge, h]

/-- A successful `directed_edge` call, described by explicit equations on
every component of the state and the returned handle. -/
theorem directed_edge_spec (g g' : Graph N E) (u v r : Nat) (e : E)
    (hs : g.directed_edge u v e = some (g', r)) :
    u < g.adjacency.length ∧
    r = g.edges.length ∧
    g'.nodes = g.nodes ∧
    g'.edges = g.edges ++ [e] ∧
    g'.incidence = g.incidence ++ [⟨u, v⟩] ∧
    g'.adjacency = g.adjacency.set u
      (g.adjacency.getD u [] ++ [⟨v, g.edges.length⟩]) := by
  by_cases h : u < g.adjacency.length
  · rw [directed_edge_some g u v e h] at hs
    simp only [Option.some.injEq, Prod.mk.injEq] at hs
    obtain ⟨hg, hr⟩ := hs
    subst hg
    exact ⟨h, hr.symm, rfl, rfl, rfl, by rw [getD_eq_get _ _ h]⟩
  · rw [directed_edge_none g u v e h] at hs
    simp at hs

theorem wf_directed_edge (g g' : Graph N E) (u v r : Nat) (e : E)
    (hw : Wf g) (hs : g.directed_edge u v e = some (g', r)) : Wf g' := by
  obtain ⟨h1, h2, h3, h4⟩ := hw
  obtain ⟨hu, hr, hnodes, hedges, hinc, hadj⟩ := directed_edge_spec g g' u v r e hs
  refine ⟨?_, ?_, ?_, ?_⟩
  · rw [hnodes, hadj, List.length_set]; exact h1
  · rw [hedges, hinc]; simp [h2]
  · intro l hl a ha
    rw [hadj] at hl
    rw [hedges]
    simp only [List.length_append, List.length_singleton]
    rcases List.mem_or_eq_of_mem_set hl with hl | hl
    · exact Nat.lt_succ_of_lt (h3 l hl a ha)
    · subst hl
      rcases List.mem_append.1 ha with ha | ha
      · have : g.adjacency.getD u [] ∈ g.adjacency := by
          rw [getD_eq_get _ _ hu]; exact List.get_mem _ _ _
        exact Nat.lt_succ_of_lt (h3 _ this a ha)
      · simp at ha; subst ha; simp
  · intro i hi
    rw [hinc] at hi
    simp only [List.length_append, List.length_singleton] at hi
    by_cases hi' : i < g.incidence.length
    · rw [hinc, List.getD_append _ _ _ _ hi']
      obtain ⟨hfrm, hcnt⟩ := h4 i hi'
      refine ⟨by rw [hadj, List.length_set]; exact hfrm, ?_⟩
      unfold adjCount at hcnt ⊢
      rw [hadj]
      by_cases hfu : (g.incidence.getD i ⟨0, 0⟩).frm = u
      · rw [hfu] at hcnt ⊢
        rw [getD_set_self _ _ _ _ hu, List.countP_append]
        have hz : List.countP
            (fun a => a.node == (g.incidence.getD i ⟨0, 0⟩).toN && a.edge == i)
            [AdjEntry.mk v g.edges.length] = 0 := by
          simp only [List.countP_singleton]
          have : ¬ (g.edges.length == i) = true := by simp; omega
          simp [this]
        omega
      · rw [getD_set_other _ _ _ (fun hh => hfu hh.symm)]
        exact hcnt
    · have hieq : i = g.incidence.length := by omega
      have hget : (g.incidence ++ [IncEntry.mk u v]).getD i ⟨0, 0⟩
          = IncEntry.mk u v := by
        subst hieq
        rw [List.getD_append_right _ _ _ _ (Nat.le_refl _), Nat.sub_self]
        rfl
      rw [hinc, hget]
      refine ⟨by rw [hadj, List.length_set]; exact hu, ?_⟩
      unfold adjCount
      rw [hadj]
      simp only
      rw [getD_set_self _ _ _ _ hu, List.countP_append]
      have hz : List.countP (fun a => a.node == v && a.edge == i)
          (g.adjacency.getD u []) = 0 := by
        rw [List.countP_eq_zero]
        intro a ha
        have hmem : g.adjacency.getD u [] ∈ g.adjacency := by
          rw [getD_eq_get _ _ hu]; exact List.get_mem _ _ _
        have := h3 _ hmem a ha
        simp only [Bool.and_eq_true, beq_iff_eq, not_and]
        intro _; omega
      have ho : List.countP (fun a => a.node == v && a.edge == i)
          [AdjEntry.mk v g.edges.length] = 1 := by
        simp only [List.countP_singleton]
        have : (g.edges.length == i) = true := by simp; omega
        simp [this]
      omega

theorem undirected_edge_spec (g g' : Graph N E) (a b r1 r2 : Nat) (e : E)
    (hs : g.undirected_edge a b e = some (g', r1, r2)) :
    ∃ g1, g.directed_edge a b e = some (g1, r1) ∧
      g1.directed_edge b a e = some (g', r2) := by
  unfold Graph.undirected_edge at hs
  cases hd1 : g.directed_edge a b e with
  | none => rw [hd1] at hs; simp at hs
  | some p1 =>
    obtain ⟨g1, r1'⟩ := p1
    rw [hd1] at hs
    dsimp only at hs
    cases hd2 : g1.directed_edge b a e with
    | none => rw [hd2] at hs; simp at hs
    | some p2 =>
      obtain ⟨g2, r2'⟩ := p2
      rw [hd2] at hs
      dsimp only at hs
      simp only [Option.some.injEq, Prod.mk.injEq] at hs
      obtain ⟨hg, hra, hrb⟩ := hs
      subst hg; subst hra; subst hrb
      exact ⟨g1, rfl, hd2⟩

theorem wf_applyOp (g g' : Graph N E) (op : Op N E) (hw : Wf g)
    (hs : applyOp g op = some g') : Wf g' := by
  cases op with
  | node n =>
    simp only [applyOp, Option.some.injEq] at hs
    exact hs ▸ wf_node g n hw
  | directed_edge u v e =>
    simp only [applyOp, Option.map_eq_some'] at hs
    obtain ⟨⟨g1, r⟩, hs1, hs2⟩ := hs
    exact hs2 ▸ wf_directed_edge g g1 u v r e hw hs1
  | undirected_edge a b e =>
    simp only [applyOp, Option.map_eq_some'] at hs
    obtain ⟨⟨g2, r⟩, hs1, hs2⟩ := hs
    subst hs2
    obtain ⟨g1, hd1, hd2⟩ := undirected_edge_spec g g2 a b r.1 r.2 e (by
      rw [hs1])
    exact wf_directed_edge g1 g2 b a r.2 e
      (wf_directed_edge g g1 a b r.1 e hw hd1) hd2

theorem wf_runOps (g g' : Graph N E) (ops : List (Op N E)) (hw : Wf g)
    (hs : runOps g ops = some g') : Wf g' := by
  induction ops generalizing g with
  | nil => simp only [runOps, Option.some.injEq] at hs; exact hs ▸ hw
  | cons op rest ih =>
    simp only [runOps] at hs
    cases ha : applyOp g op with
    | none => rw [ha] at hs; simp at hs
    | some g1 =>
      rw [ha] at hs
      exact ih g1 (wf_applyOp g g1 op hw ha) hs

theorem wf_empty : Wf (Graph.empty N E) := by
  refine ⟨rfl, rfl, ?_, ?_⟩
  · intro l hl; simp [Graph.empty] at hl
  · intro i hi; simp [Graph.empty] at hi

theorem built_wf (g : Graph N E) (hb : Built g) : Wf g := by
  obtain ⟨ops, hops⟩ := hb
  exact wf_runOps _ g ops wf_empty hops

/-- C1: in every graph built through the public construction API, each
incidence entry `e ↦ (u, v)` points at a live source slot whose adjacency
list contains the pair `(v, e)` exactly once, and a `directed_edge` call
records exactly the pair it was given, both in the incidence table and —
exactly once — in the adjacency list of its source. -/
theorem c1_adjacency_incidence_consistency (g : Graph N E) (hb : Built g) :
    (∀ i, i < g.incidence.length →
      (g.incidence.getD i ⟨0, 0⟩).frm < g.adjacency.length ∧
      adjCount g (g.incidence.getD i ⟨0, 0⟩).frm
        (g.incidence.getD i ⟨0, 0⟩).toN i = 1) ∧
    (∀ u v e g' r, g.directed_edge u v e = some (g', r) →
      g'.incidence.getD r ⟨0, 0⟩ = ⟨u, v⟩ ∧ adjCount g' u v r = 1) := by
  have hw := built_wf g hb
  refine ⟨hw.2.2.2, ?_⟩
  intro u v e g' r hs
  have hw' : Wf g' := wf_directed_edge g g' u v r e hw hs
  obtain ⟨hu, hr, hnodes, hedges, hinc, hadj⟩ := directed_edge_spec g g' u v r e hs
  have hrinc : r = g.incidence.length := by rw [hr, hw.2.1]
  have hget : g'.incidence.getD r ⟨0, 0⟩ = IncEntry.mk u v := by
    rw [hinc, hrinc, List.getD_append_right _ _ _ _ (Nat.le_refl _),
      Nat.sub_self]
    rfl
  refine ⟨hget, ?_⟩
  have hlt : r < g'.incidence.length := by
    rw [hinc, hrinc]; simp
  have := (hw'.2.2.2 r hlt).2
  rw [hget] at this
  exact this

/-- Closed witness for C1, applying it to a concretely built graph. -/
theorem c1_witness :
    Built gEx ∧
    ((∀ i, i < gEx.incidence.length →
      (gEx.incidence.getD i ⟨0, 0⟩).frm < gEx.adjacency.length ∧
      adjCount gEx (gEx.incidence.getD i ⟨0, 0⟩).frm
        (gEx.incidence.getD i ⟨0, 0⟩).toN i = 1) ∧
    (∀ u v e g' r, gEx.directed_edge u v e = some (g', r) →
      g'.incidence.getD r ⟨0, 0⟩ = ⟨u, v⟩ ∧ adjCount g' u v r = 1)) :=
  ⟨⟨exOps, rfl⟩, c1_adjacency_incidence_consistency gEx ⟨exOps, rfl⟩⟩

/-! ### Handle stability -/

theorem applyOp_stable (g g' : Graph N E) (op : Op N E)
    (hs : applyOp g op = some g') :
    (∀ r, r < g.nodes.length → g'.nodes.get? r = g.nodes.get? r) ∧
    (∀ r, r < g.edges.length → g'.edges.get? r = g.edges.get? r) ∧
    g.nodes.length ≤ g'.nodes.length ∧ g.edges.length ≤ g'.edges.length := by
  cases op with
  | node n =>
    simp only [applyOp, Option.some.injEq] at hs
    subst hs
    refine ⟨?_, ?_, ?_, ?_⟩
    · intro r hr
      show (g.nodes ++ [n]).get? r = g.nodes.get? r
      exact List.get?_append hr
    · intro r hr; rfl
    · show g.nodes.length ≤ (g.nodes ++ [n]).length
      simp
    · exact Nat.le_refl _
  | directed_edge u v e =>
    simp only [applyOp, Option.map_eq_some'] at hs
    obtain ⟨⟨g1, r⟩, hs1, hs2⟩ := hs
    subst hs2
    obtain ⟨hu, hr, hnodes, hedges, hinc, hadj⟩ :=
      directed_edge_spec g g1 u v r e hs1
    refine ⟨?_, ?_, ?_, ?_⟩
    · intro i hi; rw [hnodes]
    · intro i hi
      rw [hedges]
      exact List.get?_append hi
    · rw [hnodes]
    · rw [hedges]; simp
  | undirected_edge a b e =>
    simp only [applyOp, Option.map_eq_some'] at hs
    obtain ⟨⟨g2, r⟩, hs1, hs2⟩ := hs
    subst hs2
    obtain ⟨g1, hd1, hd2⟩ := undirected_edge_spec g g2 a b r.1 r.2 e (by
      rw [hs1])
    obtain ⟨_, _, hnodes1, hedges1, _, _⟩ :=
      directed_edge_spec g g1 a b r.1 e hd1
    obtain ⟨_, _, hnodes2, hedges2, _, _⟩ :=
      directed_edge_spec g1 g2 b a r.2 e hd2
    refine ⟨?_, ?_, ?_, ?_⟩
    · intro i hi
      rw [hnodes2, hnodes1]
    · intro i hi
      have h1 : i < g1.edges.length := by
        rw [hedges1]; simp only [List.length_append]; omega
      rw [hedges2, List.get?_append h1, hedges1, List.get?_append hi]
    · rw [hnodes2, hnodes1]
    · rw [hedges2, hedges1]
      simp only [List.length_append]
      omega

theorem runOps_stable (g g' : Graph N E) (ops : List (Op N E))
    (hs : runOps g ops = some g') :
    (∀ r, r < g.nodes.length → g'.nodes.get? r = g.nodes.get? r) ∧
    (∀ r, r < g.edges.length → g'.edges.get? r = g.edges.get? r) ∧
    g.nodes.length ≤ g'.nodes.length ∧ g.edges.length ≤ g'.edges.length := by
  induction ops generalizing g with
  | nil =>
    simp only [runOps, Option.some.injEq] at hs
    subst hs
    exact ⟨fun _ _ => rfl, fun _ _ => rfl, Nat.le_refl _, Nat.le_refl _⟩
  | cons op rest ih =>
    simp only [runOps] at hs
    cases ha : applyOp g op with
    | none => rw [ha] at hs; simp at hs
    | some g1 =>
      rw [ha] at hs
      obtain ⟨hn1, he1, hln1, hle1⟩ := applyOp_stable g g1 op ha
      obtain ⟨hn2, he2, hln2, hle2⟩ := ih g1 hs
      refine ⟨?_, ?_, Nat.le_trans hln1 hln2, Nat.le_trans hle1 hle2⟩
      · intro r hr
        rw [hn2 r (Nat.lt_of_lt_of_le hr hln1), hn1 r hr]
      · intro r hr
        rw [he2 r (Nat.lt_of_lt_of_le hr hle1), he1 r hr]

/-- C5: a node or edge handle keeps resolving, through handle-indexed read
access, to the payload it resolved to before any further construction
calls were applied. -/
theorem c5_handle_stability (g g' : Graph N E) (ops : List (Op N E))
    (hs : runOps g ops = some g') :
    (∀ r, r < g.nodes.length → g'.indexNode r = g.indexNode r) ∧
    (∀ r, r < g.edges.length → g'.indexEdge r = g.indexEdge r) := by
  obtain ⟨hn, he, _, _⟩ := runOps_stable g g' ops hs
  exact ⟨hn, he⟩

/-- Further construction calls applied to the example graph. -/
def exOps2 : List (Op Nat Nat) :=
  [.node 30, .directed_edge 1 0 7, .undirected_edge 0 2 9]

/-- The example graph after the further construction calls. -/
def gEx2 : Graph Nat Nat :=
  (runOps gEx exOps2).getD (Graph.empty Nat Nat)

/-- Closed witness for C5 on a concrete run of further additions. -/
theorem c5_witness :
    runOps gEx exOps2 = some gEx2 ∧
    ((∀ r, r < gEx.nodes.length → gEx2.indexNode r = gEx.indexNode r) ∧
     (∀ r, r < gEx.edges.length → gEx2.indexEdge r = gEx.indexEdge r)) :=
  ⟨rfl, c5_handle_stability gEx gEx2 exOps2 rfl⟩

/-! ### Undirected mirroring -/

/-- C7: `undirected_edge a b p` yields two distinct fresh edges, `a → b`
then `b → a`, both carrying the payload `p`, stored independently: mutating
the first payload afterwards leaves the second unchanged. -/
theorem c7_undirected_mirroring (g : Graph N E) (a b : Nat) (p : E)
    (hw : Wf g) (ha : a < g.adjacency.length) (hb : b < g.adjacency.length) :
    ∃ g2 e1 e2, g.undirected_edge a b p = some (g2, e1, e2) ∧
      g2.incidence.getD e1 ⟨0, 0⟩ = ⟨a, b⟩ ∧
      g2.incidence.getD e2 ⟨0, 0⟩ = ⟨b, a⟩ ∧
      e1 ≠ e2 ∧
      g2.indexEdge e1 = some p ∧ g2.indexEdge e2 = some p ∧
      (∀ q g3, g2.setEdge e1 q = some g3 →
        g3.indexEdge e2 = some p ∧ g3.indexEdge e1 = some q) := by
  have hd1 := directed_edge_some g a b p ha
  set g1 : Graph N E :=
    { g with
      edges := g.edges ++ [p],
      adjacency := g.adjacency.set a
        (g.adjacency.get ⟨a, ha⟩ ++ [⟨b, g.edges.length⟩]),
      incidence := g.incidence ++ [⟨a, b⟩] } with hg1
  have hb1 : b < g1.adjacency.length := by
    simp only [hg1, List.length_set]
    exact hb
  have hd2 := directed_edge_some g1 b a p hb1
  set g2 : Graph N E :=
    { g1 with
      edges := g1.edges ++ [p],
      adjacency := g1.adjacency.set b
        (g1.adjacency.get ⟨b, hb1⟩ ++ [⟨a, g1.edges.length⟩]),
      incidence := g1.incidence ++ [⟨b, a⟩] } with hg2
  refine ⟨g2, g.edges.length, g1.edges.length, ?_, ?_, ?_, ?_, ?_, ?_, ?_⟩
  · unfold Graph.undirected_edge
    rw [hd1]
    dsimp only
    rw [hd2]
  · show (g1.incidence ++ [IncEntry.mk b a]).getD g.edges.length ⟨0, 0⟩
        = IncEntry.mk a b
    have h1 : g.edges.length < g1.incidence.length := by
      simp [hg1, hw.2.1]
    rw [List.getD_append _ _ _ _ h1]
    show (g.incidence ++ [IncEntry.mk a b]).getD g.edges.length ⟨0, 0⟩
        = IncEntry.mk a b
    rw [hw.2.1, List.getD_append_right _ _ _ _ (Nat.le_refl _), Nat.sub_self]
    rfl
  · show (g1.incidence ++ [IncEntry.mk b a]).getD g1.edges.length ⟨0, 0⟩
        = IncEntry.mk b a
    have h1 : g1.edges.length = g1.incidence.length := by
      simp [hg1, hw.2.1]
    rw [h1, List.getD_append_right _ _ _ _ (Nat.le_refl _), Nat.sub_self]
    rfl
  · show g.edges.length ≠ g1.edges.length
    simp [hg1]
  · show (g1.edges ++ [p]).get? g.edges.length = some p
    rw [List.get?_append (by simp [hg1])]
    simp only [hg1]
    rw [List.get?_concat_length]
  · show (g1.edges ++ [p]).get? g1.edges.length = some p
    rw [List.get?_concat_length]
  · intro q g3 hset
    unfold Graph.setEdge at hset
    have hlen2 : g2.edges.length = g.edges.length + 2 := by
      show ((g.edges ++ [p]) ++ [p]).length = g.edges.length + 2
      simp
    have hlt : g.edges.length < g2.edges.length := by omega
    rw [if_pos hlt] at hset
    simp only [Option.some.injEq] at hset
    subst hset
    constructor
    · show ((g1.edges ++ [p]).set g.edges.length q).get? g1.edges.length
          = some p
      rw [List.get?_set]
      have : g.edges.length ≠ g1.edges.length := by simp [hg1]
      rw [if_neg this, List.get?_concat_length]
    · show ((g1.edges ++ [p]).set g.edges.length q).get? g.edges.length
          = some q
      rw [List.get?_set, if_pos rfl]
      rw [List.get?_append (by simp [hg1])]
      simp only [hg1]
      rw [List.get?_concat_length]
      rfl

/-- Closed witness for C7 on the example graph. -/
theorem c7_witness :
    Wf gEx ∧ 0 < gEx.adjacency.length ∧ 1 < gEx.adjacency.length ∧
    (∃ g2 e1 e2, gEx.undirected_edge 0 1 42 = some (g2, e1, e2) ∧
      g2.incidence.getD e1 ⟨0, 0⟩ = ⟨0, 1⟩ ∧
      g2.incidence.getD e2 ⟨0, 0⟩ = ⟨1, 0⟩ ∧
      e1 ≠ e2 ∧
      g2.indexEdge e1 = some 42 ∧ g2.indexEdge e2 = some 42 ∧
      (∀ q g3, g2.setEdge e1 q = some g3 →
        g3.indexEdge e2 = some 42 ∧ g3.indexEdge e1 = some q)) :=
  ⟨by decide, by decide, by decide,
    c7_undirected_mirroring gEx 0 1 42 (by decide) (by decide) (by decide)⟩

/-! ### Flow solver -/

/-- C4: `min_cut` delegates to `max_flow` and returns the identical
value, for every graph and every pair of handles. -/
theorem c4_min_cut_eq_max_flow (g : Graph N Int) (s t : Nat) :
    g.min_cut s t = g.max_flow s t := rfl

/-- C3: on the three-node chain `A → B` (capacity 3), `B → C`
(capacity 2), the computed maximum flow from `A` to `C` is 2. -/
theorem c3_three_node_chain_flow : gABC.max_flow 0 2 = .ok 2 := by decide

/-- C8: a flow graph with any negative-capacity edge is rejected with the
invalid-input result before any flow computation. -/
theorem c8_negative_capacity_rejected (g : Graph N Int) (s t : Nat)
    (hneg : ∃ c ∈ g.edges, c < 0) : g.max_flow s t = .invalidInput := by
  obtain ⟨c, hc, hlt⟩ := hneg
  unfold Graph.max_flow
  have : g.edges.any (fun c => decide (c < 0)) = true :=
    List.any_eq_true.2 ⟨c, hc, by simpa⟩
  simp [this]

/-- Closed witness for C8 on a graph with a capacity-`-1` edge. -/
theorem c8_witness :
    (∃ c ∈ gNeg.edges, c < 0) ∧ gNeg.max_flow 0 1 = .invalidInput :=
  ⟨by decide, c8_negative_capacity_rejected gNeg 0 1 (by decide)⟩

/-! ### Depth-first traversal: visited-array bookkeeping -/

theorem visB_set_self (v : List Bool) (node : Nat) (h : node < v.length) :
    visB (v.set node true) node = true :=
  getD_set_self v node true false h

theorem visB_set_other (v : List Bool) (node i : Nat) (h : node ≠ i) :
    visB (v.set node true) i = visB v i :=
  getD_set_other v true false h

theorem visB_get (v : List Bool) (i : Nat) (h : i < v.length) :
    visB v i = v.get ⟨i, h⟩ :=
  getD_eq_get v false h

theorem visB_replicate (n i : Nat) :
    visB (List.replicate n false) i = false :=
  getD_replicate_false n i

theorem unvis_mono_le :
    ∀ (v v2 : List Bool), v2.length = v.length →
      (∀ i, visB v i = true → visB v2 i = true) → unvis v2 ≤ unvis v := by
  intro v
  induction v with
  | nil =>
    intro v2 hl _
    rw [List.length_nil] at hl
    rw [List.eq_nil_of_length_eq_zero hl]
  | cons x t ih =>
    intro v2 hl hm
    cases v2 with
    | nil => simp at hl
    | cons y t2 =>
      simp only [List.length_cons, Nat.succ.injEq] at hl
      have hmt : ∀ i, visB t i = true → visB t2 i = true :=
        fun i hi => hm (i + 1) hi
      have ht := ih t2 hl hmt
      simp only [unvis, List.count_cons] at ht ⊢
      cases x with
      | true =>
        have hy : y = true := hm 0 rfl
        subst hy
        simpa using ht
      | false =>
        cases y <;> simp <;> omega

theorem unvis_set (v : List Bool) :
    ∀ node, node < v.length → visB v node = false →
      unvis (v.set node true) + 1 = unvis v := by
  induction v with
  | nil => intro node h; simp at h
  | cons x t ih =>
    intro node hn hf
    cases node with
    | zero =>
      have hx : x = false := hf
      subst hx
      simp [unvis, List.count_cons]
    | succ m =>
      have hm : m < t.length := by simpa using hn
      have hf' : visB t m = false := hf
      have := ih m hm hf'
      simp only [List.set_cons_succ, unvis, List.count_cons] at this ⊢
      omega

/-! ### Depth-first traversal: monotonicity -/

theorem dfsList_mono (g : Graph N E) (f : Nat → List Bool → TRes)
    (hf : DfsMono f) :
    ∀ l v v2 out, dfsList g f l v = .ok v2 out →
      v2.length = v.length ∧ ∀ i, visB v i = true → visB v2 i = true := by
  intro l
  induction l with
  | nil =>
    intro v v2 out h
    simp only [dfsList, TRes.ok.injEq] at h
    obtain ⟨h1, _⟩ := h
    subst h1
    exact ⟨rfl, fun _ hh => hh⟩
  | cons a rest ih =>
    intro v v2 out h
    simp only [dfsList] at h
    by_cases hge : a.edge < g.edges.length
    · rw [if_pos hge] at h
      cases hres : f a.node v with
      | outOfFuel => rw [hres] at h; simp [seqTRes] at h
      | panicked => rw [hres] at h; simp [seqTRes] at h
      | ok v1 out1 =>
        rw [hres] at h
        simp only [seqTRes] at h
        cases hrest : dfsList g f rest v1 with
        | outOfFuel => rw [hrest] at h; simp [seqTRes] at h
        | panicked => rw [hrest] at h; simp [seqTRes] at h
        | ok v2' out2 =>
          rw [hrest] at h
          simp only [seqTRes, TRes.ok.injEq] at h
          obtain ⟨h1, _⟩ := h
          subst h1
          obtain ⟨hl1, hm1⟩ := hf a.node v v1 out1 hres
          obtain ⟨hl2, hm2⟩ := ih v1 v2' out2 hrest
          exact ⟨hl2.trans hl1, fun i hi => hm2 i (hm1 i hi)⟩
    · rw [if_neg hge] at h
      simp at h

theorem dfsNode_mono (g : Graph N E) :
    ∀ fuel, DfsMono (fun x w => dfsNode g fuel x w) := by
  intro fuel
  induction fuel with
  | zero => intro node v v2 out h; simp [dfsNode] at h
  | succ fuel ih =>
    intro node v v2 out h
    simp only [dfsNode] at h
    by_cases hn : node < v.length
    · rw [dif_pos hn] at h
      by_cases hvis : v.get ⟨node, hn⟩ = true
      · rw [if_pos hvis] at h
        simp only [TRes.ok.injEq] at h
        obtain ⟨h1, _⟩ := h
        subst h1
        exact ⟨rfl, fun _ hh => hh⟩
      · rw [if_neg hvis] at h
        by_cases h2 : node < g.adjacency.length
        · rw [dif_pos h2] at h
          cases hres : dfsList g (fun x w => dfsNode g fuel x w)
              (g.adjacency.get ⟨node, h2⟩) (v.set node true) with
          | outOfFuel => rw [hres] at h; simp [seqTRes] at h
          | panicked => rw [hres] at h; simp [seqTRes] at h
          | ok v2' out' =>
            rw [hres] at h
            simp only [seqTRes, TRes.ok.injEq] at h
            obtain ⟨h1, _⟩ := h
            subst h1
            obtain ⟨hl, hm⟩ := dfsList_mono g _ ih _ _ _ _ hres
            refine ⟨by rw [hl, List.length_set], ?_⟩
            intro i hi
            apply hm
            by_cases hni : node = i
            · subst hni; exact visB_set_self v node hn
            · rw [visB_set_other v node i hni]; exact hi
        · rw [dif_neg h2] at h; simp at h
    · rw [dif_neg hn] at h; simp at h

/-! ### Depth-first traversal: fuel sufficiency -/

theorem dfsList_fuelOk (g : Graph N E) (f : Nat → List Bool → TRes)
    (B : Nat) (hmono : DfsMono f)
    (hf : ∀ node v, unvis v < B → f node v ≠ .outOfFuel) :
    ∀ l v, unvis v < B → dfsList g f l v ≠ .outOfFuel := by
  intro l
  induction l with
  | nil => intro v hv; simp [dfsList]
  | cons a rest ih =>
    intro v hv
    simp only [dfsList]
    by_cases hge : a.edge < g.edges.length
    · rw [if_pos hge]
      cases hres : f a.node v with
      | outOfFuel => exact absurd hres (hf a.node v hv)
      | panicked => simp [seqTRes]
      | ok v1 out1 =>
        simp only [seqTRes]
        obtain ⟨hl1, hm1⟩ := hmono a.node v v1 out1 hres
        have hv1 : unvis v1 < B :=
          Nat.lt_of_le_of_lt (unvis_mono_le v v1 hl1 hm1) hv
        cases hrest : dfsList g f rest v1 with
        | outOfFuel => exact absurd hrest (ih v1 hv1)
        | panicked => simp [seqTRes]
        | ok v2 out2 => simp [seqTRes]
    · rw [if_neg hge]; simp

theorem dfsNode_fuelOk (g : Graph N E) :
    ∀ fuel node v, unvis v < fuel → dfsNode g fuel node v ≠ .outOfFuel := by
  intro fuel
  induction fuel with
  | zero => intro node v hv; omega
  | succ fuel ih =>
    intro node v hv
    simp only [dfsNode]
    by_cases hn : node < v.length
    · rw [dif_pos hn]
      by_cases hvis : v.get ⟨node, hn⟩ = true
      · rw [if_pos hvis]; simp
      · rw [if_neg hvis]
        by_cases h2 : node < g.adjacency.length
        · rw [dif_pos h2]
          have hvf : visB v node = false := by
            rw [visB_get v node hn]
            exact Bool.not_eq_true _ ▸ (by simpa using hvis)
          have hset : unvis (v.set node true) + 1 = unvis v :=
            unvis_set v node hn hvf
          have hlt : unvis (v.set node true) < fuel := by omega
          cases hres : dfsList g (fun x w => dfsNode g fuel x w)
              (g.adjacency.get ⟨node, h2⟩) (v.set node true) with
          | outOfFuel =>
            exact absurd hres
              (dfsList_fuelOk g _ fuel (dfsNode_mono g fuel)
                (fun nd w hw => ih nd w hw) _ _ hlt)
          | panicked => simp [seqTRes]
          | ok v2 out => simp [seqTRes]
        · rw [dif_neg h2]; simp
    · rw [dif_neg hn]; simp

/-! ### Reachability -/

theorem reach_refl (g : Graph N E) (s : Nat) : Reach g s s := ⟨0, rfl⟩

theorem reach_head (g : Graph N E) (a b m : Nat) (hstep : stepAdj g a b)
    (h : Reach g b m) : Reach g a m := by
  obtain ⟨k, hk⟩ := h
  refine ⟨k + 1, ?_⟩
  induction k generalizing m with
  | zero =>
    have hb : m = b := hk
    subst hb
    exact Or.inr ⟨a, rfl, hstep⟩
  | succ k ih =>
    rcases hk with hk | ⟨p, hp, hs⟩
    · exact Or.inl (ih m hk)
    · exact Or.inr ⟨p, ih p hp, hs⟩

theorem adj_getD_mem (g : Graph N E) (m : Nat) (h : m < g.adjacency.length) :
    g.adjacency.getD m [] ∈ g.adjacency := by
  rw [getD_eq_get _ _ h]
  exact List.get_mem _ _ _

/-! ### Depth-first traversal: visit counts -/

theorem dfsList_count (g : Graph N E) (f : Nat → List Bool → TRes)
    (hf : DfsCount f) :
    ∀ l v v2 out, dfsList g f l v = .ok v2 out →
      ∀ i, out.count i + (if visB v i = true then 1 else 0)
        = (if visB v2 i = true then 1 else 0) := by
  intro l
  induction l with
  | nil =>
    intro v v2 out h i
    simp only [dfsList, TRes.ok.injEq] at h
    obtain ⟨h1, h2⟩ := h
    subst h1; subst h2
    simp
  | cons a rest ih =>
    intro v v2 out h i
    simp only [dfsList] at h
    by_cases hge : a.edge < g.edges.length
    · rw [if_pos hge] at h
      cases hres : f a.node v with
      | outOfFuel => rw [hres] at h; simp [seqTRes] at h
      | panicked => rw [hres] at h; simp [seqTRes] at h
      | ok v1 out1 =>
        rw [hres] at h
        simp only [seqTRes] at h
        cases hrest : dfsList g f rest v1 with
        | outOfFuel => rw [hrest] at h; simp [seqTRes] at h
        | panicked => rw [hrest] at h; simp [seqTRes] at h
        | ok v2' out2 =>
          rw [hrest] at h
          simp only [seqTRes, TRes.ok.injEq] at h
          obtain ⟨h1, h2⟩ := h
          subst h1; subst h2
          have e1 := hf a.node v v1 out1 hres i
          have e2 := ih v1 v2' out2 hrest i
          rw [List.count_append]
          cases hbv : visB v i <;> cases hbv1 : visB v1 i <;>
            cases hbv2 : visB v2' i <;>
            simp [hbv, hbv1, hbv2] at e1 e2 ⊢ <;> omega
    · rw [if_neg hge] at h
      simp at h

theorem dfsNode_count (g : Graph N E) :
    ∀ fuel, DfsCount (fun x w => dfsNode g fuel x w) := by
  intro fuel
  induction fuel with
  | zero => intro node v v2 out h; simp [dfsNode] at h
  | succ fuel ih =>
    intro node v v2 out h i
    simp only [dfsNode] at h
    by_cases hn : node < v.length
    · rw [dif_pos hn] at h
      by_cases hvis : v.get ⟨node, hn⟩ = true
      · rw [if_pos hvis] at h
        simp only [TRes.ok.injEq] at h
        obtain ⟨h1, h2⟩ := h
        subst h1; subst h2
        simp
      · rw [if_neg hvis] at h
        by_cases h2 : node < g.adjacency.length
        · rw [dif_pos h2] at h
          cases hres : dfsList g (fun x w => dfsNode g fuel x w)
              (g.adjacency.get ⟨node, h2⟩) (v.set node true) with
          | outOfFuel => rw [hres] at h; simp [seqTRes] at h
          | panicked => rw [hres] at h; simp [seqTRes] at h
          | ok v2' out' =>
            rw [hres] at h
            simp only [seqTRes, TRes.ok.injEq] at h
            obtain ⟨h1, h2'⟩ := h
            subst h1; subst h2'
            have hvf : visB v node = false := by
              rw [visB_get v node hn]
              simpa using hvis
            have e := dfsList_count g _ ih _ _ _ _ hres i
            by_cases hni : i = node
            · subst hni
              rw [visB_set_self v i hn] at e
              rw [hvf, List.count_cons]
              cases hbv2 : visB v2' i <;> (simp [hbv2] at e ⊢; all_goals omega)
            · rw [visB_set_other v node i (fun hh => hni hh.symm)] at e
              rw [List.count_cons]
              have hne : ¬ (node == i) = true := by
                simpa using fun hh => hni hh.symm
              rw [if_neg hne]
              omega
        · rw [dif_neg h2] at h; simp at h
    · rw [dif_neg hn] at h; simp at h

/-! ### Depth-first traversal: soundness of visited nodes -/

theorem dfsList_sound (g : Graph N E) (f : Nat → List Bool → TRes)
    (hf : DfsSound g f) :
    ∀ l v v2 out, dfsList g f l v = .ok v2 out →
      ∀ m ∈ out, ∃ a ∈ l, Reach g a.node m := by
  intro l
  induction l with
  | nil =>
    intro v v2 out h m hm
    simp only [dfsList, TRes.ok.injEq] at h
    obtain ⟨_, h2⟩ := h
    subst h2
    simp at hm
  | cons a rest ih =>
    intro v v2 out h m hm
    simp only [dfsList] at h
    by_cases hge : a.edge < g.edges.length
    · rw [if_pos hge] at h
      cases hres : f a.node v with
      | outOfFuel => rw [hres] at h; simp [seqTRes] at h
      | panicked => rw [hres] at h; simp [seqTRes] at h
      | ok v1 out1 =>
        rw [hres] at h
        simp only [seqTRes] at h
        cases hrest : dfsList g f rest v1 with
        | outOfFuel => rw [hrest] at h; simp [seqTRes] at h
        | panicked => rw [hrest] at h; simp [seqTRes] at h
        | ok v2' out2 =>
          rw [hrest] at h
          simp only [seqTRes, TRes.ok.injEq] at h
          obtain ⟨_, h2⟩ := h
          subst h2
          rcases List.mem_append.1 hm with hm | hm
          · exact ⟨a, List.mem_cons_self a rest, hf a.node v v1 out1 hres m hm⟩
          · obtain ⟨a', ha', hr⟩ := ih v1 v2' out2 hrest m hm
            exact ⟨a', List.mem_cons_of_mem a ha', hr⟩
    · rw [if_neg hge] at h
      simp at h

theorem dfsNode_sound (g : Graph N E) :
    ∀ fuel, DfsSound g (fun x w => dfsNode g fuel x w) := by
  intro fuel
  induction fuel with
  | zero => intro node v v2 out h; simp [dfsNode] at h
  | succ fuel ih =>
    intro node v v2 out h m hm
    simp only [dfsNode] at h
    by_cases hn : node < v.length
    · rw [dif_pos hn] at h
      by_cases hvis : v.get ⟨node, hn⟩ = true
      · rw [if_pos hvis] at h
        simp only [TRes.ok.injEq] at h
        obtain ⟨_, h2⟩ := h
        subst h2
        simp at hm
      · rw [if_neg hvis] at h
        by_cases h2 : node < g.adjacency.length
        · rw [dif_pos h2] at h
          cases hres : dfsList g (fun x w => dfsNode g fuel x w)
              (g.adjacency.get ⟨node, h2⟩) (v.set node true) with
          | outOfFuel => rw [hres] at h; simp [seqTRes] at h
          | panicked => rw [hres] at h; simp [seqTRes] at h
          | ok v2' out' =>
            rw [hres] at h
            simp only [seqTRes, TRes.ok.injEq] at h
            obtain ⟨_, h2'⟩ := h
            subst h2'
            rcases List.mem_cons.1 hm with hm | hm
            · subst hm; exact reach_refl g m
            · obtain ⟨a, ha, hr⟩ := dfsList_sound g _ ih _ _ _ _ hres m hm
              refine reach_head g node a.node m ⟨a, ?_, rfl⟩ hr
              rw [getD_eq_get _ _ h2]
              exact ha
        · rw [dif_neg h2] at h; simp at h
    · rw [dif_neg hn] at h; simp at h

/-! ### Depth-first traversal: closure of the visited set -/

theorem dfsList_closure (g : Graph N E) (f : Nat → List Bool → TRes)
    (hmono : DfsMono f) (hclos : DfsClosure g f) :
    ∀ l v v2 out, dfsList g f l v = .ok v2 out →
      (∀ a ∈ l, visB v2 a.node = true) ∧
      (∀ m, visB v2 m = true → visB v m = true ∨
        ∀ a ∈ g.adjacency.getD m [], visB v2 a.node = true) := by
  intro l
  induction l with
  | nil =>
    intro v v2 out h
    simp only [dfsList, TRes.ok.injEq] at h
    obtain ⟨h1, _⟩ := h
    subst h1
    exact ⟨by simp, fun m hm => Or.inl hm⟩
  | cons a rest ih =>
    intro v v2 out h
    simp only [dfsList] at h
    by_cases hge : a.edge < g.edges.length
    · rw [if_pos hge] at h
      cases hres : f a.node v with
      | outOfFuel => rw [hres] at h; simp [seqTRes] at h
      | panicked => rw [hres] at h; simp [seqTRes] at h
      | ok v1 out1 =>
        rw [hres] at h
        simp only [seqTRes] at h
        cases hrest : dfsList g f rest v1 with
        | outOfFuel => rw [hrest] at h; simp [seqTRes] at h
        | panicked => rw [hrest] at h; simp [seqTRes] at h
        | ok v2' out2 =>
          rw [hrest] at h
          simp only [seqTRes, TRes.ok.injEq] at h
          obtain ⟨h1, _⟩ := h
          subst h1
          obtain ⟨hl2, hm2⟩ := dfsList_mono g f hmono rest v1 v2' out2 hrest
          obtain ⟨hfst, hrest2⟩ := ih v1 v2' out2 hrest
          constructor
          · intro a' ha'
            rcases List.mem_cons.1 ha' with ha' | ha'
            · subst ha'
              exact hm2 _ (hclos a'.node v v1 out1 hres).1
            · exact hfst a' ha'
          · intro m hm
            rcases hrest2 m hm with hv1 | hr
            · rcases (hclos a.node v v1 out1 hres).2 m hv1 with hv | hr
              · exact Or.inl hv
              · exact Or.inr (fun a' ha' => hm2 _ (hr a' ha'))
            · exact Or.inr hr
    · rw [if_neg hge] at h
      simp at h

theorem dfsNode_closure (g : Graph N E) :
    ∀ fuel, DfsClosure g (fun x w => dfsNode g fuel x w) := by
  intro fuel
  induction fuel with
  | zero => intro node v v2 out h; simp [dfsNode] at h
  | succ fuel ih =>
    intro node v v2 out h
    simp only [dfsNode] at h
    by_cases hn : node < v.length
    · rw [dif_pos hn] at h
      by_cases hvis : v.get ⟨node, hn⟩ = true
      · rw [if_pos hvis] at h
        simp only [TRes.ok.injEq] at h
        obtain ⟨h1, _⟩ := h
        subst h1
        refine ⟨?_, fun m hm => Or.inl hm⟩
        rw [visB_get v node hn]
        exact hvis
      · rw [if_neg hvis] at h
        by_cases h2 : node < g.adjacency.length
        · rw [dif_pos h2] at h
          cases hres : dfsList g (fun x w => dfsNode g fuel x w)
              (g.adjacency.get ⟨node, h2⟩) (v.set node true) with
          | outOfFuel => rw [hres] at h; simp [seqTRes] at h
          | panicked => rw [hres] at h; simp [seqTRes] at h
          | ok v2' out' =>
            rw [hres] at h
            simp only [seqTRes, TRes.ok.injEq] at h
            obtain ⟨h1, _⟩ := h
            subst h1
            obtain ⟨hl2, hm2⟩ :=
              dfsList_mono g _ (dfsNode_mono g fuel) _ _ _ _ hres
            obtain ⟨hfst, hrest⟩ :=
              dfsList_closure g _ (dfsNode_mono g fuel) ih _ _ _ _ hres
            constructor
            · exact hm2 node (visB_set_self v node hn)
            · intro m hm
              rcases hrest m hm with hv | hr
              · by_cases hmn : m = node
                · subst hmn
                  refine Or.inr ?_
                  rw [getD_eq_get _ _ h2]
                  exact hfst
                · rw [visB_set_other v node m (fun hh => hmn hh.symm)] at hv
                  exact Or.inl hv
              · exact Or.inr hr
        · rw [dif_neg h2] at h; simp at h
    · rw [dif_neg hn] at h; simp at h

/-! ### Depth-first traversal: absence of index faults -/

theorem pclosed_mono (g : Graph N E) (v v2 : List Bool)
    (hm : ∀ i, visB v i = true → visB v2 i = true) (hpc : PClosed g v) :
    PClosed g v2 := by
  intro m hm1 hm2 a ha
  refine hpc m hm1 ?_ a ha
  cases hb : visB v m with
  | false => rfl
  | true => exact absurd (hm m hb) (by simp [hm2])

theorem pclosed_set (g : Graph N E) (v : List Bool) (node : Nat)
    (hpc : PClosed g v) : PClosed g (v.set node true) := by
  refine pclosed_mono g v _ ?_ hpc
  intro i hi
  by_cases hni : node = i
  · subst hni
    have hgd : v.getD node false = true := hi
    have hlt : node < v.length := getD_pos_of_ne v (by rw [hgd]; simp)
    exact visB_set_self v node hlt
  · rw [visB_set_other v node i hni]; exact hi

theorem dfsList_noPanic (g : Graph N E) (f : Nat → List Bool → TRes)
    (hmono : DfsMono f)
    (hf : ∀ nd w, w.length = g.nodes.length → PClosed g w →
      nd < g.nodes.length → f nd w ≠ .panicked) :
    ∀ l, (∀ a ∈ l, a.node < g.nodes.length) →
      (∀ a ∈ l, a.edge < g.edges.length) →
      ∀ v, v.length = g.nodes.length → PClosed g v →
        dfsList g f l v ≠ .panicked := by
  intro l
  induction l with
  | nil => intro _ _ v _ _; simp [dfsList]
  | cons a rest ih =>
    intro hnodes hedges v hv hpc
    simp only [dfsList]
    rw [if_pos (hedges a (List.mem_cons_self a rest))]
    cases hres : f a.node v with
    | outOfFuel => simp [seqTRes]
    | panicked =>
      exact absurd hres (hf a.node v hv hpc (hnodes a (List.mem_cons_self a rest)))
    | ok v1 out1 =>
      simp only [seqTRes]
      obtain ⟨hl1, hm1⟩ := hmono a.node v v1 out1 hres
      have hv1 : v1.length = g.nodes.length := hl1.trans hv
      have hpc1 : PClosed g v1 := pclosed_mono g v v1 hm1 hpc
      cases hrest : dfsList g f rest v1 with
      | outOfFuel => simp [seqTRes]
      | panicked =>
        exact absurd hrest
          (ih (fun a' ha' => hnodes a' (List.mem_cons_of_mem a ha'))
            (fun a' ha' => hedges a' (List.mem_cons_of_mem a ha')) v1 hv1 hpc1)
      | ok v2 out2 => simp [seqTRes]

theorem dfsNode_noPanic (g : Graph N E)
    (hadj : g.adjacency.length = g.nodes.length)
    (hedges : ∀ l ∈ g.adjacency, ∀ a ∈ l, a.edge < g.edges.length) :
    ∀ fuel node v, v.length = g.nodes.length → PClosed g v →
      node < g.nodes.length → dfsNode g fuel node v ≠ .panicked := by
  intro fuel
  induction fuel with
  | zero => intro node v _ _ _; simp [dfsNode]
  | succ fuel ih =>
    intro node v hv hpc hnode
    simp only [dfsNode]
    have hn : node < v.length := by omega
    rw [dif_pos hn]
    by_cases hvis : v.get ⟨node, hn⟩ = true
    · rw [if_pos hvis]; simp
    · rw [if_neg hvis]
      have h2 : node < g.adjacency.length := by omega
      rw [dif_pos h2]
      have hvf : visB v node = false := by
        rw [visB_get v node hn]; simpa using hvis
      have hl_nodes : ∀ a ∈ g.adjacency.get ⟨node, h2⟩,
          a.node < g.nodes.length := by
        intro a ha
        refine hpc node h2 hvf a ?_
        rw [getD_eq_get _ _ h2]
        exact ha
      have hl_edges : ∀ a ∈ g.adjacency.get ⟨node, h2⟩,
          a.edge < g.edges.length :=
        fun a ha => hedges _ (List.get_mem _ _ _) a ha
      cases hres : dfsList g (fun x w => dfsNode g fuel x w)
          (g.adjacency.get ⟨node, h2⟩) (v.set node true) with
      | outOfFuel => simp [seqTRes]
      | panicked =>
        exact absurd hres
          (dfsList_noPanic g _ (dfsNode_mono g fuel)
            (fun nd w hw hpcw hnd => ih nd w hw hpcw hnd)
            _ hl_nodes hl_edges _ (by rw [List.length_set]; exact hv)
            (pclosed_set g v node hpc))
      | ok v2 out => simp [seqTRes]

/-! ### C2: each reachable node is visited exactly once -/

/-- C2: on a well-formed, closed graph, `visit_dfs_nodes` succeeds from any
valid start node, fires the node visitor exactly once for every node
reachable from the start, and never fires it for an unreachable node. -/
theorem c2_dfs_visits_reachable_once (g : Graph N E) (hw : Wf g)
    (hcl : Closed g) (s : Nat) (hs : s < g.nodes.length) :
    ∃ v2 out, visit_dfs_nodes g s = .ok v2 out ∧
      (∀ n, Reach g s n → out.count n = 1) ∧
      (∀ n, ¬ Reach g s n → out.count n = 0) := by
  have hadj : g.adjacency.length = g.nodes.length := hw.1.symm
  have hedges := hw.2.2.1
  have hlen : (List.replicate g.nodes.length false).length = g.nodes.length :=
    List.length_replicate _ _
  have hpc : PClosed g (List.replicate g.nodes.length false) := by
    intro m hm1 _ a ha
    exact hcl _ (adj_getD_mem g m hm1) a ha
  have hunvis : unvis (List.replicate g.nodes.length false) = g.nodes.length := by
    simp [unvis, List.count_replicate]
  cases hres : visit_dfs_nodes g s with
  | outOfFuel =>
    exact absurd hres
      (dfsNode_fuelOk g (g.nodes.length + 1) s _ (by omega))
  | panicked =>
    exact absurd hres
      (dfsNode_noPanic g hadj hedges (g.nodes.length + 1) s _ hlen hpc hs)
  | ok v2 out =>
    refine ⟨v2, out, rfl, ?_, ?_⟩
    · intro n hrn
      unfold visit_dfs_nodes at hres
      have hclos := dfsNode_closure g (g.nodes.length + 1) s _ v2 out hres
      have hreach : ∀ k n', reachN g s k n' → visB v2 n' = true := by
        intro k
        induction k with
        | zero =>
          intro n' hn'
          have : n' = s := hn'
          subst this
          exact hclos.1
        | succ k ihk =>
          intro n' hn'
          rcases hn' with hn' | ⟨m, hm, hstep⟩
          · exact ihk n' hn'
          · have hvm := ihk m hm
            rcases hclos.2 m hvm with hl | hr
            · rw [visB_replicate] at hl
              simp at hl
            · obtain ⟨a, ha, han⟩ := hstep
              have := hr a ha
              rwa [han] at this
      obtain ⟨k, hk⟩ := hrn
      have hv2 := hreach k n hk
      have hcnt := dfsNode_count g (g.nodes.length + 1) s _ v2 out hres n
      rw [visB_replicate, hv2] at hcnt
      simpa using hcnt
    · intro n hnr
      unfold visit_dfs_nodes at hres
      rw [List.count_eq_zero]
      intro hmem
      exact hnr (dfsNode_sound g (g.nodes.length + 1) s _ v2 out hres n hmem)

/-- Closed witness for C2 on the example graph. -/
theorem c2_witness :
    Wf gEx ∧ Closed gEx ∧ 0 < gEx.nodes.length ∧
    (∃ v2 out, visit_dfs_nodes gEx 0 = .ok v2 out ∧
      (∀ n, Reach gEx 0 n → out.count n = 1) ∧
      (∀ n, ¬ Reach gEx 0 n → out.count n = 0)) :=
  ⟨by decide, by decide, by decide,
    c2_dfs_visits_reachable_once gEx (by decide) (by decide) 0 (by decide)⟩

/-! ### C10: the target handle of `directed_edge` is never validated -/

theorem dfsList_append_panic (g : Graph N E) (f : Nat → List Bool → TRes)
    (l1 l2 : List AdjEntry) :
    ∀ v v1 o1, dfsList g f l1 v = .ok v1 o1 →
      dfsList g f l2 v1 = .panicked →
      dfsList g f (l1 ++ l2) v = .panicked := by
  induction l1 with
  | nil =>
    intro v v1 o1 hok hpan
    simp only [dfsList, TRes.ok.injEq] at hok
    obtain ⟨h1, _⟩ := hok
    subst h1
    simpa using hpan
  | cons a rest ih =>
    intro v v1 o1 hok hpan
    simp only [dfsList, List.cons_append] at hok ⊢
    by_cases hge : a.edge < g.edges.length
    · rw [if_pos hge] at hok ⊢
      cases hres : f a.node v with
      | outOfFuel => rw [hres] at hok; simp [seqTRes] at hok
      | panicked => rw [hres] at hok; simp [seqTRes] at hok
      | ok va oa =>
        rw [hres] at hok
        simp only [seqTRes] at hok ⊢
        cases hrest : dfsList g f rest va with
        | outOfFuel => rw [hrest] at hok; simp [seqTRes] at hok
        | panicked => rw [hrest] at hok; simp [seqTRes] at hok
        | ok vb ob =>
          rw [hrest] at hok
          simp only [seqTRes, TRes.ok.injEq] at hok
          obtain ⟨h1, _⟩ := hok
          subst h1
          have happ : rest.append l2 = rest ++ l2 := rfl
          rw [happ, ih va vb ob hrest hpan]
    · rw [if_neg hge] at hok
      simp at hok

/-- C10: `directed_edge` validates only its source handle — it faults
exactly when the source is not a live node slot — while an out-of-range
target handle is accepted and stored verbatim in the incidence table and
the source's adjacency list, and the invalid target is only detected when
a traversal later indexes it (here: the depth-first walk faults). -/
theorem c10_target_handle_unchecked (g : Graph N E) (u v : Nat) (p : E)
    (hw : Wf g) (hcl : Closed g) :
    (g.directed_edge u v p = none ↔ ¬ u < g.nodes.length) ∧
    (∀ g' r, g.directed_edge u v p = some (g', r) →
      g'.incidence.getD r ⟨0, 0⟩ = ⟨u, v⟩ ∧ adjCount g' u v r = 1 ∧
      (g.nodes.length ≤ v → visit_dfs_nodes g' u = .panicked)) := by
  constructor
  · by_cases h : u < g.adjacency.length
    · have hu : u < g.nodes.length := by rw [hw.1]; exact h
      rw [directed_edge_some g u v p h]
      exact iff_of_false (by simp) (by simpa using hu)
    · have hu : ¬ u < g.nodes.length := by rw [hw.1]; exact h
      rw [directed_edge_none g u v p h]
      exact iff_of_true rfl hu
  · intro g' r hs
    have hw' := wf_directed_edge g g' u v r p hw hs
    obtain ⟨hu, hr, hnodes, hedges', hinc, hadjy⟩ :=
      directed_edge_spec g g' u v r p hs
    have hrinc : r = g.incidence.length := by rw [hr, hw.2.1]
    have hget : g'.incidence.getD r ⟨0, 0⟩ = IncEntry.mk u v := by
      rw [hinc, hrinc, List.getD_append_right _ _ _ _ (Nat.le_refl _),
        Nat.sub_self]
      rfl
    refine ⟨hget, ?_, ?_⟩
    · have hlt : r < g'.incidence.length := by
        rw [hinc, hrinc]; simp
      have := (hw'.2.2.2 r hlt).2
      rw [hget] at this
      exact this
    · intro hvbig
      have hun : u < g.nodes.length := by rw [hw.1]; exact hu
      have hn' : g'.nodes.length = g.nodes.length := by rw [hnodes]
      have hadj' : g'.adjacency.length = g'.nodes.length := hw'.1.symm
      have hedgesWf' := hw'.2.2.1
      have hinitlen : (List.replicate g'.nodes.length false).length
          = g'.nodes.length := List.length_replicate _ _
      unfold visit_dfs_nodes
      have hnlt : u < (List.replicate g'.nodes.length false).length := by
        rw [hinitlen, hn']; exact hun
      simp only [dfsNode]
      rw [dif_pos hnlt]
      have hvget : (List.replicate g'.nodes.length false).get ⟨u, hnlt⟩
          = false := List.get_replicate _ _
      rw [if_neg (by simp [hvget])]
      have hualt : u < g'.adjacency.length := by
        rw [hadj', hn']; exact hun
      rw [dif_pos hualt]
      have hulen : u < g.adjacency.length := hu
      have hgetadj : g'.adjacency.get ⟨u, hualt⟩
          = g.adjacency.getD u [] ++ [⟨v, g.edges.length⟩] := by
        have h1 : g'.adjacency.get ⟨u, hualt⟩ = g'.adjacency.getD u [] :=
          (getD_eq_get _ _ hualt).symm
        rw [h1, hadjy, getD_set_self _ _ _ _ hu]
      rw [hgetadj]
      have hpc1 : PClosed g'
          ((List.replicate g'.nodes.length false).set u true) := by
        intro m hm1 hm2 a ha
        by_cases hmu : m = u
        · subst hmu
          rw [visB_set_self _ _ hnlt] at hm2
          simp at hm2
        · rw [hadjy, getD_set_other _ _ _ (fun hh => hmu hh.symm)] at ha
          rw [hn']
          by_cases hml : m < g.adjacency.length
          · exact hcl _ (adj_getD_mem g m hml) a ha
          · rw [List.getD_eq_getElem?_getD,
              List.getElem?_eq_none (by omega)] at ha
            simp at ha
      have hmonf := dfsNode_mono g' g'.nodes.length
      have holdn : ∀ a ∈ g.adjacency.getD u [], a.node < g'.nodes.length := by
        intro a ha
        rw [hn']
        exact hcl _ (adj_getD_mem g u hulen) a ha
      have holde : ∀ a ∈ g.adjacency.getD u [], a.edge < g'.edges.length := by
        intro a ha
        rw [hedges']
        have := hw.2.2.1 _ (adj_getD_mem g u hulen) a ha
        simp only [List.length_append, List.length_singleton]
        omega
      have hsetlen : ((List.replicate g'.nodes.length false).set u true).length
          = g'.nodes.length := by rw [List.length_set, hinitlen]
      have hnp : dfsList g' (fun x w => dfsNode g' g'.nodes.length x w)
          (g.adjacency.getD u [])
          ((List.replicate g'.nodes.length false).set u true)
          ≠ .panicked :=
        dfsList_noPanic g' _ hmonf
          (fun nd w hwl hpcw hnd =>
            dfsNode_noPanic g' hadj' hedgesWf' g'.nodes.length nd w hwl hpcw hnd)
          _ holdn holde _ hsetlen hpc1
      have hunv : unvis ((List.replicate g'.nodes.length false).set u true)
          < g'.nodes.length := by
        have h1 : unvis (List.replicate g'.nodes.length false)
            = g'.nodes.length := by
          simp [unvis, List.count_replicate]
        have h2 := unvis_set (List.replicate g'.nodes.length false) u hnlt
          (by rw [visB_get _ _ hnlt, hvget])
        have h3 : 0 < g'.nodes.length := by omega
        omega
      have hnf : dfsList g' (fun x w => dfsNode g' g'.nodes.length x w)
          (g.adjacency.getD u [])
          ((List.replicate g'.nodes.length false).set u true)
          ≠ .outOfFuel :=
        dfsList_fuelOk g' _ g'.nodes.length hmonf
          (fun nd w hwv => dfsNode_fuelOk g' g'.nodes.length nd w hwv) _ _ hunv
      cases hresold : dfsList g' (fun x w => dfsNode g' g'.nodes.length x w)
          (g.adjacency.getD u [])
          ((List.replicate g'.nodes.length false).set u true) with
      | outOfFuel => exact absurd hresold hnf
      | panicked => exact absurd hresold hnp
      | ok v1 o1 =>
        obtain ⟨hv1len, _⟩ :=
          dfsList_mono g' _ hmonf _ _ _ _ hresold
        have hbad : dfsList g' (fun x w => dfsNode g' g'.nodes.length x w)
            [AdjEntry.mk v g.edges.length] v1 = .panicked := by
          simp only [dfsList]
          rw [if_pos (by rw [hedges']; simp)]
          have hnpos : ∃ k, g'.nodes.length = k + 1 :=
            ⟨g'.nodes.length - 1, by omega⟩
          obtain ⟨k, hk⟩ := hnpos
          have hvnot : ¬ v < v1.length := by
            rw [hv1len, hsetlen, hn']
            omega
          rw [hk]
          simp only [dfsNode]
          rw [dif_neg hvnot]
          simp [seqTRes]
        rw [dfsList_append_panic g' _ _ _ _ _ _ hresold hbad]
        simp [seqTRes]

/-- Closed witness for C10 on the example graph, adding an edge whose
target handle is out of range. -/
theorem c10_witness :
    Wf gEx ∧ Closed gEx ∧
    ((gEx.directed_edge 0 5 99 = none ↔ ¬ 0 < gEx.nodes.length) ∧
    (∀ g' r, gEx.directed_edge 0 5 99 = some (g', r) →
      g'.incidence.getD r ⟨0, 0⟩ = ⟨0, 5⟩ ∧ adjCount g' 0 5 r = 1 ∧
      (gEx.nodes.length ≤ 5 → visit_dfs_nodes g' 0 = .panicked))) :=
  ⟨by decide, by decide,
    c10_target_handle_unchecked gEx 0 5 99 (by decide) (by decide)⟩

/-! ### C9: both traversals terminate -/

theorem sum_range_getD_length (l : List (List AdjEntry)) :
    ∑ i in Finset.range l.length, (l.getD i []).length
      = (l.map List.length).sum := by
  induction l with
  | nil => simp
  | cons x t ih =>
    rw [List.length_cons, Finset.sum_range_succ']
    have h0 : ((x :: t).getD 0 []).length = x.length := rfl
    have hs : ∀ i, ((x :: t).getD (i + 1) []).length = (t.getD i []).length :=
      fun i => rfl
    simp only [h0, hs, ih]
    simp [Nat.add_comm]

theorem adjWeight_le (g : Graph N E) (v : List Bool) :
    adjWeight g v ≤ totalAdj g := by
  unfold adjWeight totalAdj
  calc ∑ i in Finset.range g.adjacency.length,
        (if visB v i = true then 0 else (g.adjacency.getD i []).length)
      ≤ ∑ i in Finset.range g.adjacency.length,
        (g.adjacency.getD i []).length := by
        refine Finset.sum_le_sum ?_
        intro i _
        by_cases h : visB v i = true <;> simp [h]
    _ = (g.adjacency.map List.length).sum := sum_range_getD_length g.adjacency

theorem adjWeight_set (g : Graph N E) (v : List Bool) (node : Nat)
    (hnode : node < g.adjacency.length) (hnv : node < v.length)
    (hvf : visB v node = false) :
    adjWeight g (v.set node true) + (g.adjacency.getD node []).length
      = adjWeight g v := by
  unfold adjWeight
  have hmem : node ∈ Finset.range g.adjacency.length := by
    simp [hnode]
  rw [← Finset.add_sum_erase _ _ hmem, ← Finset.add_sum_erase _
    (fun i => (if visB v i = true then 0
      else (g.adjacency.getD i []).length)) hmem]
  have hterm : (if visB (v.set node true) node = true then 0
      else (g.adjacency.getD node []).length) = 0 := by
    rw [visB_set_self v node hnv]
    simp
  have hterm2 : (if visB v node = true then 0
      else (g.adjacency.getD node []).length)
      = (g.adjacency.getD node []).length := by
    rw [hvf]
    simp
  have hcongr : ∑ i in (Finset.range g.adjacency.length).erase node,
      (if visB (v.set node true) i = true then 0
        else (g.adjacency.getD i []).length)
      = ∑ i in (Finset.range g.adjacency.length).erase node,
        (if visB v i = true then 0 else (g.adjacency.getD i []).length) := by
    refine Finset.sum_congr rfl ?_
    intro i hi
    have hne : node ≠ i := fun he => (Finset.ne_of_mem_erase hi) he.symm
    rw [visB_set_other v node i hne]
  rw [hterm, hterm2, hcongr]
  omega

theorem bfsLoop_fuelOk (g : Graph N E) :
    ∀ fuel Q v, bfsPot g Q v < fuel → bfsLoop g fuel Q v ≠ .outOfFuel := by
  intro fuel
  induction fuel with
  | zero => intro Q v h; omega
  | succ fuel ih =>
    intro Q v h
    cases Q with
    | nil => simp [bfsLoop]
    | cons node rest =>
      simp only [bfsLoop]
      by_cases hn : node < v.length
      · rw [dif_pos hn]
        by_cases hvis : v.get ⟨node, hn⟩ = true
        · rw [if_pos hvis]
          refine ih rest v ?_
          unfold bfsPot at h ⊢
          simp only [List.length_cons] at h
          omega
        · rw [if_neg hvis]
          by_cases h2 : node < g.adjacency.length
          · rw [dif_pos h2]
            by_cases hall : (g.adjacency.get ⟨node, h2⟩).all
                (fun a => decide (a.edge < g.edges.length)) = true
            · rw [if_pos hall]
              have hvf : visB v node = false := by
                rw [visB_get v node hn]; simpa using hvis
              have hws := adjWeight_set g v node h2 hn hvf
              cases hres : bfsLoop g fuel
                  (rest ++ (g.adjacency.get ⟨node, h2⟩).map AdjEntry.node)
                  (v.set node true) with
              | outOfFuel =>
                refine absurd hres (ih _ _ ?_)
                unfold bfsPot at h ⊢
                simp only [List.length_cons, List.length_append,
                  List.length_map] at h ⊢
                have hget : (g.adjacency.getD node []).length
                    = (g.adjacency.get ⟨node, h2⟩).length := by
                  rw [getD_eq_get _ _ h2]
                omega
              | panicked => simp [seqTRes]
              | ok v2 out => simp [seqTRes]
            · rw [if_neg hall]; simp
          · rw [dif_neg h2]; simp
      · rw [dif_neg hn]; simp

/-- C9: both traversals terminate on every graph and start node, including
graphs with directed cycles and self-loops: with its canonical fuel budget
neither the depth-first walk nor the breadth-first loop ever exhausts its
fuel — the walk returns on marked nodes and the loop drains its queue. -/
theorem c9_traversals_terminate (g : Graph N E) (s : Nat) :
    visit_dfs_nodes g s ≠ .outOfFuel ∧ visit_bfs_nodes g s ≠ .outOfFuel := by
  constructor
  · refine dfsNode_fuelOk g _ s _ ?_
    have : unvis (List.replicate g.nodes.length false) = g.nodes.length := by
      simp [unvis, List.count_replicate]
    omega
  · refine bfsLoop_fuelOk g _ [s] _ ?_
    unfold bfsPot
    have := adjWeight_le g (List.replicate g.nodes.length false)
    simp only [List.length_singleton]
    omega

/-! ### Shortest distances -/

theorem exists_least {P : Nat → Prop} (h : ∃ n, P n) :
    ∃ n, P n ∧ ∀ m < n, ¬ P m := by
  classical
  exact ⟨Nat.find h, Nat.find_spec h, fun m hm => Nat.find_min h hm⟩

theorem dist_exists (g : Graph N E) (s n : Nat) (h : Reach g s n) :
    ∃ d, distIs g s n d := by
  obtain ⟨d, hd, hmin⟩ := exists_least h
  exact ⟨d, hd, hmin⟩

theorem distIs_unique (g : Graph N E) (s n d1 d2 : Nat)
    (h1 : distIs g s n d1) (h2 : distIs g s n d2) : d1 = d2 := by
  rcases Nat.lt_trichotomy d1 d2 with h | h | h
  · exact absurd h1.1 (h2.2 d1 h)
  · exact h
  · exact absurd h2.1 (h1.2 d2 h)

theorem distIs_le (g : Graph N E) (s n d k : Nat) (hd : distIs g s n d)
    (hk : reachN g s k n) : d ≤ k := by
  by_contra h
  exact hd.2 k (by omega) hk

theorem distIs_self (g : Graph N E) (s : Nat) : distIs g s s 0 :=
  ⟨rfl, fun j hj => absurd hj (Nat.not_lt_zero j)⟩

theorem dist_pred (g : Graph N E) (s n : Nat) :
    ∀ k, distIs g s n (k + 1) → ∃ m, distIs g s m k ∧ stepAdj g m n := by
  intro k hd
  rcases hd.1 with hr | ⟨m, hm, hstep⟩
  · exact absurd hr (hd.2 k (by omega))
  · obtain ⟨dm, hdm⟩ := dist_exists g s m ⟨k, hm⟩
    have hdmle : dm ≤ k := distIs_le g s m dm k hdm hm
    by_cases hlt : dm < k
    · have : reachN g s (dm + 1) n := Or.inr ⟨m, hdm.1, hstep⟩
      exact absurd this (hd.2 (dm + 1) (by omega))
    · have heq : dm = k := by omega
      exact ⟨m, heq ▸ hdm, hstep⟩

/-! ### Queue and visited-array helpers for the breadth-first proof -/

theorem first_occ_split {x : Nat} :
    ∀ (l : List Nat), x ∈ l → ∃ l1 l2, l = l1 ++ x :: l2 ∧ x ∉ l1 := by
  intro l
  induction l with
  | nil => intro h; simp at h
  | cons a rest ih =>
    intro h
    by_cases hax : a = x
    · subst hax
      exact ⟨[], rest, rfl, List.not_mem_nil a⟩
    · have hx : x ∈ rest := by
        rcases List.mem_cons.1 h with h | h
        · exact absurd h.symm hax
        · exact h
      obtain ⟨l1, l2, heq, hnx⟩ := ih hx
      refine ⟨a :: l1, l2, by rw [heq]; rfl, ?_⟩
      intro hmem
      rcases List.mem_cons.1 hmem with h' | h'
      · exact hax h'.symm
      · exact hnx h'

theorem visB_set_mono (v : List Bool) (x i : Nat)
    (h : visB v i = true) : visB (v.set x true) i = true := by
  by_cases hxi : x = i
  · subst hxi
    by_cases hlt : x < v.length
    · exact visB_set_self v x hlt
    · rw [List.set_eq_of_length_le (by omega)]
      exact h
  · rw [visB_set_other v x i hxi]
    exact h

theorem visB_set_false (v : List Bool) (x y : Nat) (hx : x < v.length)
    (h : visB (v.set x true) y = false) : visB v y = false ∧ y ≠ x := by
  have hyx : y ≠ x := by
    intro he
    subst he
    rw [visB_set_self v y hx] at h
    cases h
  refine ⟨?_, hyx⟩
  rw [visB_set_other v x y (fun he => hyx he.symm)] at h
  exact h

/-! ### Breadth-first layering: invariant maintenance -/

theorem bfs_inv_skip (g : Graph N E) (s x : Nat) (Q' : List Nat)
    (v : List Bool) (D : Nat) (hinv : BfsInv g s (x :: Q') v D)
    (hvx : visB v x = true) : BfsInv g s Q' v D := by
  obtain ⟨i0, i1, i2, i3, i4, i5, i6⟩ := hinv
  refine ⟨?_, ?_, ?_, ?_, i4, ?_, i6⟩
  · rcases i0 with hvS | hsQ
    · exact Or.inl hvS
    · rcases List.mem_cons.1 hsQ with he | hm
      · exact Or.inl (he ▸ hvx)
      · exact Or.inr hm
  · exact fun y hy => i1 y (List.mem_cons_of_mem x hy)
  · intro Q1 a Q2 b Q3 hsplit haF hbF haK1 hbK da db hda hdb
    have hax : a ≠ x := fun he => by rw [he, hvx] at haF; cases haF
    have hbx : b ≠ x := fun he => by rw [he, hvx] at hbF; cases hbF
    refine i2 (x :: Q1) a Q2 b Q3 (by rw [hsplit]; rfl) haF hbF ?_ ?_
      da db hda hdb
    · intro hmem
      rcases List.mem_cons.1 hmem with he | hm
      · exact hax he
      · exact haK1 hm
    · intro hmem
      rcases List.mem_cons.1 hmem with he | hm
      · exact hbx he
      · exact hbK hm
  · exact fun y hy => i3 y (List.mem_cons_of_mem x hy)
  · intro p hp a ha
    rcases i5 p hp a ha with hva | hqa
    · exact Or.inl hva
    · rcases List.mem_cons.1 hqa with he | hm
      · exact Or.inl (he ▸ hvx)
      · exact Or.inr hm

theorem bfs_inv_step (g : Graph N E) (s x : Nat) (Q' : List Nat)
    (v : List Bool) (D dx : Nat) (hinv : BfsInv g s (x :: Q') v D)
    (hn : x < v.length) (h2 : x < g.adjacency.length)
    (hvf : visB v x = false) (hdx : distIs g s x dx) :
    D ≤ dx ∧
    BfsInv g s (Q' ++ (g.adjacency.get ⟨x, h2⟩).map AdjEntry.node)
      (v.set x true) dx := by
  obtain ⟨i0, i1, i2, i3, i4, i5, i6⟩ := hinv
  obtain ⟨hDdx, hdxD1⟩ :=
    i3 x (List.mem_cons_self x Q') hvf dx hdx
  have hstepx : ∀ y ∈ (g.adjacency.get ⟨x, h2⟩).map AdjEntry.node,
      stepAdj g x y := by
    intro y hy
    obtain ⟨a, ha, hay⟩ := List.mem_map.1 hy
    exact ⟨a, by rw [getD_eq_get _ _ h2]; exact ha, hay⟩
  have hsuccreach : ∀ y ∈ (g.adjacency.get ⟨x, h2⟩).map AdjEntry.node,
      Reach g s y :=
    fun y hy => ⟨dx + 1, Or.inr ⟨x, hdx.1, hstepx y hy⟩⟩
  have hsuccle : ∀ y ∈ (g.adjacency.get ⟨x, h2⟩).map AdjEntry.node,
      ∀ dy, distIs g s y dy → dy ≤ dx + 1 :=
    fun y hy dy hdy =>
      distIs_le g s y dy (dx + 1) hdy (Or.inr ⟨x, hdx.1, hstepx y hy⟩)
  -- every node strictly closer than dx is visited after marking x
  have i4' : ∀ n d, distIs g s n d → d < dx →
      visB (v.set x true) n = true := by
    intro n d hdist hlt
    by_cases hnx : n = x
    · subst hnx; exact visB_set_self v n hn
    · rw [visB_set_other v x n (fun he => hnx he.symm)]
      by_cases hdD : d < D
      · exact i4 n d hdist hdD
      · have hdD' : d = D := by omega
        by_contra hnvis
        have hnF : visB v n = false := by
          cases hb : visB v n
          · rfl
          · exact absurd hb hnvis
        have hnQ' : n ∈ Q' := by
          rcases Nat.eq_zero_or_pos d with hd0 | hdpos
          · have hns : n = s := by rw [hd0] at hdist; exact hdist.1
            subst hns
            rcases i0 with hvS | hsQ
            · exact absurd hvS hnvis
            · rcases List.mem_cons.1 hsQ with he | hm
              · exact absurd he hnx
              · exact hm
          · obtain ⟨k, hk⟩ : ∃ k, d = k + 1 := ⟨d - 1, by omega⟩
            obtain ⟨m, hdm, hstep⟩ := dist_pred g s n k (hk ▸ hdist)
            have hmvis : visB v m = true := i4 m k hdm (by omega)
            obtain ⟨a, ha, hanode⟩ := hstep
            rcases i5 m hmvis a ha with hva | hqa
            · rw [hanode] at hva; exact absurd hva hnvis
            · rw [hanode] at hqa
              rcases List.mem_cons.1 hqa with he | hm'
              · exact absurd he hnx
              · exact hm'
        obtain ⟨L1, L2, hsplit, hnotin⟩ := first_occ_split Q' hnQ'
        have hnmem : n ∉ ([] : List Nat) ++ x :: L1 := by
          intro hmem
          simp only [List.nil_append] at hmem
          rcases List.mem_cons.1 hmem with he | hm'
          · exact hnx he
          · exact hnotin hm'
        have hle := i2 [] x L1 n L2 (by rw [hsplit]; rfl) hvf hnF
          (List.not_mem_nil x) hnmem dx d hdx hdist
        omega
  -- an unvisited node at distance exactly dx must already sit in the queue
  have hbadQ : ∀ b db, visB (v.set x true) b = false → distIs g s b db →
      db = dx → b ∈ Q' := by
    intro b db hbF hdb hdbx
    obtain ⟨hbFv, hbnx⟩ := visB_set_false v x b hn hbF
    rcases Nat.eq_zero_or_pos dx with hdx0 | hdxpos
    · have hbs : b = s := by
        rw [hdbx, hdx0] at hdb
        exact hdb.1
      subst hbs
      rcases i0 with hvS | hsQ
      · rw [hvS] at hbFv; cases hbFv
      · rcases List.mem_cons.1 hsQ with he | hm
        · exact absurd he hbnx
        · exact hm
    · obtain ⟨k, hk⟩ : ∃ k, dx = k + 1 := ⟨dx - 1, by omega⟩
      have hdb' : distIs g s b (k + 1) := by
        rw [hdbx, hk] at hdb
        exact hdb
      obtain ⟨m, hdm, hstep⟩ := dist_pred g s b k hdb'
      have hmvis' : visB (v.set x true) m = true := i4' m k hdm (by omega)
      have hmnx : m ≠ x := by
        intro he
        subst he
        have := distIs_unique g s m k dx hdm hdx
        omega
      have hmvis : visB v m = true := by
        rw [visB_set_other v x m (fun he => hmnx he.symm)] at hmvis'
        exact hmvis'
      obtain ⟨a, ha, hanode⟩ := hstep
      rcases i5 m hmvis a ha with hva | hqa
      · rw [hanode, hbFv] at hva; cases hva
      · rw [hanode] at hqa
        rcases List.mem_cons.1 hqa with he | hm'
        · exact absurd he hbnx
        · exact hm'
  -- the distance window of unvisited entries of the new queue
  have i3' : ∀ y ∈ Q' ++ (g.adjacency.get ⟨x, h2⟩).map AdjEntry.node,
      visB (v.set x true) y = false → ∀ d, distIs g s y d →
        dx ≤ d ∧ d ≤ dx + 1 := by
    intro y hy hyF d hd
    obtain ⟨hyFv, hynx⟩ := visB_set_false v x y hn hyF
    constructor
    · by_contra hlt
      have := i4' y d hd (by omega)
      rw [hyF] at this
      cases this
    · rcases List.mem_append.1 hy with hyQ | hyS
      · have := (i3 y (List.mem_cons_of_mem x hyQ) hyFv d hd).2
        omega
      · exact hsuccle y hyS d hd
  refine ⟨hDdx, ?_, ?_, ?_, i3', i4', ?_, ?_⟩
  -- i0
  · rcases i0 with hvS | hsQ
    · exact Or.inl (visB_set_mono v x s hvS)
    · rcases List.mem_cons.1 hsQ with he | hm
      · exact Or.inl (he ▸ visB_set_self v x hn)
      · exact Or.inr (List.mem_append_left _ hm)
  -- i1
  · intro y hy
    rcases List.mem_append.1 hy with hyQ | hyS
    · exact i1 y (List.mem_cons_of_mem x hyQ)
    · exact hsuccreach y hyS
  -- i2
  · intro K1 a K2 b K3 hsplit haF hbF haK1 hbK da db hda hdb
    have hamem : a ∈ Q' ++ (g.adjacency.get ⟨x, h2⟩).map AdjEntry.node := by
      rw [hsplit]
      exact List.mem_append_right _ (List.mem_cons_self _ _)
    have hbmem : b ∈ Q' ++ (g.adjacency.get ⟨x, h2⟩).map AdjEntry.node := by
      rw [hsplit]
      refine List.mem_append_right _ (List.mem_cons_of_mem _ ?_)
      exact List.mem_append_right _ (List.mem_cons_self _ _)
    obtain ⟨hadx, hadx1⟩ := i3' a hamem haF da hda
    obtain ⟨hbdx, hbdx1⟩ := i3' b hbmem hbF db hdb
    by_cases hbad : da = dx + 1 ∧ db = dx
    · exfalso
      obtain ⟨hda1, hdb0⟩ := hbad
      have hbQ' : b ∈ Q' := hbadQ b db hbF hdb hdb0
      obtain ⟨haFv, hanx⟩ := visB_set_false v x a hn haF
      obtain ⟨hbFv, hbnx⟩ := visB_set_false v x b hn hbF
      rcases List.append_eq_append_iff.1 hsplit with
        ⟨t, hK1t, hsuccst⟩ | ⟨t, hQ't, hrest⟩
      · -- the whole old queue sits inside K1
        refine hbK (List.mem_append_left _ ?_)
        rw [hK1t]
        exact List.mem_append_left _ hbQ'
      · -- Q' = K1 ++ t, and a :: (K2 ++ b :: K3) = t ++ successors
        cases t with
        | nil =>
          -- Q' = K1, so b ∈ K1
          rw [List.append_nil] at hQ't
          exact hbK (List.mem_append_left _ (hQ't ▸ hbQ'))
        | cons a' t' =>
          rw [List.cons_append] at hrest
          injection hrest with ha' hrest'
          subst ha'
          -- hrest' : K2 ++ b :: K3 = t' ++ successors
          rcases List.append_eq_append_iff.1 hrest' with
            ⟨u, ht'u, hbu⟩ | ⟨u, hK2u, hsu⟩
          · -- t' = K2 ++ u and b :: K3 = u ++ successors
            cases u with
            | nil =>
              -- t' = K2 and b heads the successors; but b is in the queue
              rw [List.append_nil] at ht'u
              have hbinQ' : b ∈ K1 ++ a :: t' := hQ't ▸ hbQ'
              rcases List.mem_append.1 hbinQ' with hbm | hbm
              · exact hbK (List.mem_append_left _ hbm)
              · rcases List.mem_cons.1 hbm with he | hm
                · have : distIs g s b da := he.symm ▸ hda
                  have := distIs_unique g s b da db this hdb
                  omega
                · exact hbK (List.mem_append_right _
                    (List.mem_cons_of_mem _ (ht'u ▸ hm)))
            | cons b' u' =>
              rw [List.cons_append] at hbu
              injection hbu with hb' hK3u
              subst hb'
              -- both a and b lie inside the old queue: use the old order
              have hQ'eq : Q' = K1 ++ a :: (K2 ++ b :: u') := by
                rw [hQ't, ht'u]
              have hle := i2 (x :: K1) a K2 b u'
                (by rw [hQ'eq]; rfl) haFv hbFv
                (by
                  intro hmem
                  rcases List.mem_cons.1 hmem with he | hm
                  · exact hanx he
                  · exact haK1 hm)
                (by
                  intro hmem
                  rcases List.mem_cons.1 hmem with he | hm
                  · exact hbnx he
                  · exact hbK hm)
                da db hda hdb
              omega
          · -- K2 = t' ++ u and the successors are u ++ b :: K3
            have hbinQ' : b ∈ K1 ++ a :: t' := hQ't ▸ hbQ'
            rcases List.mem_append.1 hbinQ' with hbm | hbm
            · exact hbK (List.mem_append_left _ hbm)
            · rcases List.mem_cons.1 hbm with he | hm
              · have : distIs g s b da := he.symm ▸ hda
                have := distIs_unique g s b da db this hdb
                omega
              · refine hbK (List.mem_append_right _
                  (List.mem_cons_of_mem _ ?_))
                rw [hK2u]
                exact List.mem_append_left _ hm
    · omega
  -- i5
  · intro p hp a ha
    by_cases hpx : p = x
    · subst hpx
      refine Or.inr (List.mem_append_right _ ?_)
      refine List.mem_map_of_mem AdjEntry.node ?_
      rwa [getD_eq_get _ _ h2] at ha
    · have hpv : visB v p = true := by
        rw [visB_set_other v x p (fun he => hpx he.symm)] at hp
        exact hp
      rcases i5 p hpv a ha with hva | hqa
      · exact Or.inl (visB_set_mono v x _ hva)
      · rcases List.mem_cons.1 hqa with he | hm
        · exact Or.inl (he ▸ visB_set_self v x hn)
        · exact Or.inr (List.mem_append_left _ hm)
  -- i6
  · intro p hp d hd
    by_cases hpx : p = x
    · subst hpx
      have := distIs_unique g s p d dx hd hdx
      omega
    · have hpv : visB v p = true := by
        rw [visB_set_other v x p (fun he => hpx he.symm)] at hp
        exact hp
      have := i6 p hpv d hd
      omega

/-! ### Breadth-first layering: the visit order is sorted by distance -/

theorem bfsLoop_sorted (g : Graph N E) (s : Nat) :
    ∀ fuel Q v D, BfsInv g s Q v D →
      ∀ v2 out, bfsLoop g fuel Q v = .ok v2 out →
        List.Pairwise (fun a b => ∀ da db,
          distIs g s a da → distIs g s b db → da ≤ db) out ∧
        ∀ o ∈ out, ∃ d, distIs g s o d ∧ D ≤ d := by
  intro fuel
  induction fuel with
  | zero =>
    intro Q v D hinv v2 out h
    cases Q with
    | nil =>
      simp only [bfsLoop, TRes.ok.injEq] at h
      obtain ⟨_, h2⟩ := h
      subst h2
      exact ⟨List.Pairwise.nil, by simp⟩
    | cons x Q' => simp [bfsLoop] at h
  | succ fuel ih =>
    intro Q v D hinv v2 out h
    cases Q with
    | nil =>
      simp only [bfsLoop, TRes.ok.injEq] at h
      obtain ⟨_, h2⟩ := h
      subst h2
      exact ⟨List.Pairwise.nil, by simp⟩
    | cons x Q' =>
      simp only [bfsLoop] at h
      by_cases hn : x < v.length
      · rw [dif_pos hn] at h
        by_cases hvis : v.get ⟨x, hn⟩ = true
        · rw [if_pos hvis] at h
          refine ih Q' v D
            (bfs_inv_skip g s x Q' v D hinv
              (by rw [visB_get v x hn]; exact hvis)) v2 out h
        · rw [if_neg hvis] at h
          by_cases h2 : x < g.adjacency.length
          · rw [dif_pos h2] at h
            by_cases hall : (g.adjacency.get ⟨x, h2⟩).all
                (fun a => decide (a.edge < g.edges.length)) = true
            · rw [if_pos hall] at h
              cases hres : bfsLoop g fuel
                  (Q' ++ (g.adjacency.get ⟨x, h2⟩).map AdjEntry.node)
                  (v.set x true) with
              | outOfFuel => rw [hres] at h; simp [seqTRes] at h
              | panicked => rw [hres] at h; simp [seqTRes] at h
              | ok vb ob =>
                rw [hres] at h
                simp only [seqTRes, TRes.ok.injEq] at h
                obtain ⟨hv2, hout⟩ := h
                subst hv2; subst hout
                have hvf : visB v x = false := by
                  rw [visB_get v x hn]
                  simpa using hvis
                have hreachx : Reach g s x :=
                  hinv.2.1 x (List.mem_cons_self x Q')
                obtain ⟨dx, hdx⟩ := dist_exists g s x hreachx
                obtain ⟨hDdx, hinv'⟩ :=
                  bfs_inv_step g s x Q' v D dx hinv hn h2 hvf hdx
                obtain ⟨hpw, hbound⟩ := ih _ _ _ hinv' vb ob hres
                constructor
                · refine List.Pairwise.cons ?_ hpw
                  intro b hb da db hda hdb
                  obtain ⟨d, hd, hdxd⟩ := hbound b hb
                  have hdaeq : da = dx := distIs_unique g s x da dx hda hdx
                  have hdbeq : db = d := distIs_unique g s b db d hdb hd
                  omega
                · intro o ho
                  rcases List.mem_cons.1 ho with he | hm
                  · exact ⟨dx, he ▸ hdx, hDdx⟩
                  · obtain ⟨d, hd, hdxd⟩ := hbound o hm
                    exact ⟨d, hd, by omega⟩
            · rw [if_neg hall] at h; simp at h
          · rw [dif_neg h2] at h; simp at h
      · rw [dif_neg hn] at h; simp at h

theorem bfsLoop_noPanic (g : Graph N E)
    (hadj : g.adjacency.length = g.nodes.length)
    (hedges : ∀ l ∈ g.adjacency, ∀ a ∈ l, a.edge < g.edges.length)
    (hcl : Closed g) :
    ∀ fuel Q v, v.length = g.nodes.length →
      (∀ y ∈ Q, y < g.nodes.length) →
      bfsLoop g fuel Q v ≠ .panicked := by
  intro fuel
  induction fuel with
  | zero =>
    intro Q v _ _
    cases Q with
    | nil => simp [bfsLoop]
    | cons x Q' => simp [bfsLoop]
  | succ fuel ih =>
    intro Q v hv hQ
    cases Q with
    | nil => simp [bfsLoop]
    | cons x Q' =>
      simp only [bfsLoop]
      have hn : x < v.length := by
        rw [hv]
        exact hQ x (List.mem_cons_self x Q')
      rw [dif_pos hn]
      by_cases hvis : v.get ⟨x, hn⟩ = true
      · rw [if_pos hvis]
        exact ih Q' v hv (fun y hy => hQ y (List.mem_cons_of_mem x hy))
      · rw [if_neg hvis]
        have h2 : x < g.adjacency.length := by
          rw [hadj]
          exact hQ x (List.mem_cons_self x Q')
        rw [dif_pos h2]
        have hall : (g.adjacency.get ⟨x, h2⟩).all
            (fun a => decide (a.edge < g.edges.length)) = true := by
          rw [List.all_eq_true]
          intro a ha
          simpa using hedges _ (List.get_mem _ _ _) a ha
        rw [if_pos hall]
        cases hres : bfsLoop g fuel
            (Q' ++ (g.adjacency.get ⟨x, h2⟩).map AdjEntry.node)
            (v.set x true) with
        | panicked =>
          refine absurd hres (ih _ _ ?_ ?_)
          · rw [List.length_set]; exact hv
          · intro y hy
            rcases List.mem_append.1 hy with hyQ | hyS
            · exact hQ y (List.mem_cons_of_mem x hyQ)
            · obtain ⟨a, ha, hay⟩ := List.mem_map.1 hyS
              rw [← hay]
              exact hcl _ (List.get_mem _ _ _) a ha
        | outOfFuel => simp [seqTRes]
        | ok vb ob => simp [seqTRes]

theorem bfs_inv_init (g : Graph N E) (s : Nat) :
    BfsInv g s [s] (List.replicate g.nodes.length false) 0 := by
  refine ⟨Or.inr (List.mem_singleton.2 rfl), ?_, ?_, ?_, ?_, ?_, ?_⟩
  · intro y hy
    have : y = s := List.mem_singleton.1 hy
    subst this
    exact reach_refl g y
  · intro Q1 a Q2 b Q3 hsplit _ _ _ _ da db _ _
    exfalso
    have hlen := congrArg List.length hsplit
    rw [List.length_singleton, List.length_append, List.length_cons,
      List.length_append, List.length_cons] at hlen
    omega
  · intro y hy _ d hd
    have hys : y = s := List.mem_singleton.1 hy
    rw [hys] at hd
    have := distIs_unique g s s d 0 hd (distIs_self g s)
    omega
  · intro n d _ hlt
    exact absurd hlt (Nat.not_lt_zero d)
  · intro p hp
    rw [visB_replicate] at hp
    cases hp
  · intro p hp
    rw [visB_replicate] at hp
    cases hp

/-- C6: on a well-formed, closed graph, `visit_bfs_nodes` succeeds from
any valid start node and fires the node visitor on reachable nodes in
non-decreasing order of distance (edge count) from the start node. -/
theorem c6_bfs_layering (g : Graph N E) (hw : Wf g) (hcl : Closed g)
    (s : Nat) (hs : s < g.nodes.length) :
    ∃ v2 out, visit_bfs_nodes g s = .ok v2 out ∧
      List.Pairwise (fun a b => ∀ da db,
        distIs g s a da → distIs g s b db → da ≤ db) out ∧
      ∀ o ∈ out, Reach g s o := by
  cases hres : visit_bfs_nodes g s with
  | outOfFuel =>
    refine absurd hres (bfsLoop_fuelOk g _ [s] _ ?_)
    unfold bfsPot
    have := adjWeight_le g (List.replicate g.nodes.length false)
    simp only [List.length_singleton]
    omega
  | panicked =>
    refine absurd hres
      (bfsLoop_noPanic g hw.1.symm hw.2.2.1 hcl _ [s] _
        (List.length_replicate _ _) ?_)
    intro y hy
    have : y = s := List.mem_singleton.1 hy
    subst this
    exact hs
  | ok v2 out =>
    refine ⟨v2, out, rfl, ?_, ?_⟩
    · unfold visit_bfs_nodes at hres
      exact (bfsLoop_sorted g s _ [s] _ 0 (bfs_inv_init g s) v2 out hres).1
    · unfold visit_bfs_nodes at hres
      intro o ho
      obtain ⟨d, hd, _⟩ :=
        (bfsLoop_sorted g s _ [s] _ 0 (bfs_inv_init g s) v2 out hres).2 o ho
      exact ⟨d, hd.1⟩

/-- Closed witness for C6 on the example graph. -/
theorem c6_witness :
    Wf gEx ∧ Closed gEx ∧ 0 < gEx.nodes.length ∧
    (∃ v2 out, visit_bfs_nodes gEx 0 = .ok v2 out ∧
      List.Pairwise (fun a b => ∀ da db,
        distIs gEx 0 a da → distIs gEx 0 b db → da ≤ db) out ∧
      ∀ o ∈ out, Reach gEx 0 o) :=
  ⟨by decide, by decide, by decide,
    c6_bfs_layering gEx (by decide) (by decide) 0 (by decide)⟩

end GraphLib
